import Mathlib

set_option maxRecDepth 4000

-- Verification development for the divortio-proxio rewriting pipeline.
-- JavaScript strings are modelled as lists of characters; JavaScript URL
-- objects are modelled by URLRec records carrying hostname, pathname and
-- search, produced by a parser covering the absolute http(s) form (with
-- userinfo and port), the protocol-relative and path-absolute forms, and
-- absolute URLs with a non-special scheme, which new URL accepts with an
-- empty hostname and an opaque pathname (the remaining inputs are modelled
-- as parse failures, matching the try/catch fallbacks of the source).

abbrev Str := List Char

def isJsSpace (c : Char) : Bool :=
  c = ' ' || c = '\t' || c = '\n' || c = '\r'

def asciiLower (c : Char) : Char :=
  if 'A' ≤ c && c ≤ 'Z' then Char.ofNat (c.toNat + 32) else c

def lowerStr (s : Str) : Str := s.map asciiLower

def isPre : Str → Str → Bool
  | [], _ => true
  | _ :: _, [] => false
  | p :: ps, c :: cs => p = c && isPre ps cs

def isSuf (p s : Str) : Bool := isPre p.reverse s.reverse

def dropPre : Str → Str → Option Str
  | [], s => some s
  | _ :: _, [] => none
  | p :: ps, c :: cs => if p = c then dropPre ps cs else none

def splitOnChar (c : Char) : Str → List Str
  | [] => [[]]
  | a :: as =>
    if a = c then [] :: splitOnChar c as
    else
      match splitOnChar c as with
      | [] => [[a]]
      | h :: t => (a :: h) :: t

def trim (s : Str) : Str :=
  ((s.dropWhile isJsSpace).reverse.dropWhile isJsSpace).reverse

def joinSemi : List Str → Str
  | [] => []
  | [p] => p
  | p :: q :: rest => p ++ "; ".data ++ joinSemi (q :: rest)

def containsSubstr : Str → Str → Bool
  | [], sub => isPre sub []
  | c :: rest, sub => isPre sub (c :: rest) || containsSubstr rest sub

def natStr (n : Nat) : Str := (toString n).data

-- URL model

structure URLRec where
  hostname : Str
  pathname : Str
  search : Str
deriving DecidableEq

def notDelim (c : Char) : Bool := !(c = '/' || c = '?' || c = '#')

def goodHostChar (c : Char) : Bool :=
  !(c = '/' || c = '?' || c = '#' || c = '@' || c = ':')

-- WHATWG host parsing for an authority (the part between the scheme's //
-- and the first /, ? or #): anything up to the LAST @ is userinfo, the part
-- after the first : of the remainder is the port (digits only, or the URL is
-- invalid), and what is left is the hostname.  An empty hostname is invalid
-- for the http(s) scheme.

def portOk : Str → Bool
  | [] => true
  | c :: ds => c = ':' && ds.all Char.isDigit

def parseAfterScheme (rest : Str) : Option URLRec :=
  let authority := rest.takeWhile notDelim
  let after := rest.drop authority.length
  let hostPort := (authority.reverse.takeWhile (fun c => c ≠ '@')).reverse
  let host := hostPort.takeWhile (fun c => c ≠ ':')
  if host = [] then none
  else if !(portOk (hostPort.drop host.length)) then none
  else
    let beforeHash := after.takeWhile (fun c => c ≠ '#')
    let pathname := beforeHash.takeWhile (fun c => c ≠ '?')
    let search := beforeHash.drop pathname.length
    some ⟨host, if pathname = [] then "/".data else pathname, search⟩

def parseAbsURL (s : Str) : Option URLRec :=
  match dropPre "https://".data s with
  | some rest => parseAfterScheme rest
  | none =>
    match dropPre "http://".data s with
    | some rest => parseAfterScheme rest
    | none => none

-- A URL scheme: an ASCII letter followed by letters, digits, +, - or .,
-- then a colon.  new URL(val, base) on a value with a NON-special scheme
-- (mailto:, tel:, blob:, data:, ...) succeeds with an empty hostname and an
-- opaque pathname running to the first ? or #; the branch below models
-- that.  A special scheme written without // (http:foo) and a non-special
-- scheme with an authority (foo://h) remain modelled as parse failures, as
-- do relative references without a leading slash.

def isSchemeChar (c : Char) : Bool :=
  c.isAlpha || c.isDigit || c = '+' || c = '-' || c = '.'

def schemeSplit (val : Str) : Option (Str × Str) :=
  match val with
  | [] => none
  | c :: _ =>
    if c.isAlpha then
      let scheme := val.takeWhile isSchemeChar
      match val.drop scheme.length with
      | ':' :: rest => some (lowerStr scheme, rest)
      | _ => none
    else none

def specialScheme (s : Str) : Bool :=
  s = "http".data || s = "https".data || s = "ws".data || s = "wss".data
    || s = "ftp".data || s = "file".data

def resolveURL (val : Str) (base : URLRec) : Option URLRec :=
  if isPre "https://".data val || isPre "http://".data val then
    parseAbsURL val
  else if isPre "//".data val then
    parseAbsURL ("https:".data ++ val)
  else if isPre "/".data val then
    let beforeHash := val.takeWhile (fun c => c ≠ '#')
    let pathname := beforeHash.takeWhile (fun c => c ≠ '?')
    let search := beforeHash.drop pathname.length
    some ⟨base.hostname, pathname, search⟩
  else
    match schemeSplit val with
    | some (scheme, rest) =>
      if specialScheme scheme || isPre "//".data rest then none
      else
        let beforeHash := rest.takeWhile (fun c => c ≠ '#')
        let pathname := beforeHash.takeWhile (fun c => c ≠ '?')
        let search := beforeHash.drop pathname.length
        some ⟨[], pathname, search⟩
    | none => none

-- True when val does not resolve to an opaque-path URL (empty hostname)
-- against base: on such values the attribute rewriter is idempotent.

def resolvesNonOpaque (val : Str) (base : URLRec) : Bool :=
  match resolveURL val base with
  | none => true
  | some u => !(u.hostname = [])

def proxyString (u : URLRec) (rootDomain : Str) : Str :=
  "https://".data ++ u.hostname ++ ".".data ++ rootDomain ++ u.pathname ++ u.search

def hrefStr (u : URLRec) : Str :=
  "https://".data ++ u.hostname ++ u.pathname ++ u.search

-- Configuration (src/config): only the fields the verified code paths read.
-- The compiled cookie passthrough regexes are modelled as predicates.

structure Config where
  rootDomain : Str
  cacheEnabled : Bool
  cacheTtl : Nat
  cacheableTypes : List Str
  modsEnabled : List Str
  cookiesRootPassthrough : Option (Str → Bool)
  cookiesProxyPassthrough : Option (Str → Bool)

-- src/handle/handlers/url.mjs getTargetURL: extracts the target URL from
-- the proxy request.  The hostname check is endsWith(rootDomain), the
-- subdomain is hostname.slice(0, -(rootDomain.length + 1)) (JavaScript
-- slice clamps at 0, which List.take with truncated subtraction matches),
-- and the target is new URL(url.pathname + url.search, "https://" ++ subdomain).

def getTargetURL (requestUrl : Str) (config : Config) : Option URLRec :=
  match parseAbsURL requestUrl with
  | none => none
  | some url =>
    if !(isSuf config.rootDomain url.hostname) then none
    else
      let subdomain := url.hostname.take (url.hostname.length - (config.rootDomain.length + 1))
      if subdomain = [] then none
      else
        match parseAbsURL ("https://".data ++ subdomain) with
        | none => none
        | some base => resolveURL (url.pathname ++ url.search) base

-- src/rewrite/rewriters/headers/cookies.mjs rewriteSetCookieHeader: splits
-- the header on ";", keeps the leading name=value token, drops Secure and
-- SameSite attributes, rewrites Domain=d to Domain=(d without leading dot).rootDomain,
-- keeps everything else, and appends Secure and SameSite=Lax.
-- processCookieParts is the loop over parts[1..].

def processCookieParts (rootDomain : Str) : List Str → List Str
  | [] => []
  | p :: rest =>
    let part := trim p
    let lowerPart := lowerStr part
    if isPre "secure".data lowerPart || isPre "samesite".data lowerPart then
      processCookieParts rootDomain rest
    else if isPre "domain=".data lowerPart then
      let originalDomain := trim ((splitOnChar '=' part).getD 1 [])
      let cleanOriginDomain :=
        if isPre ".".data originalDomain then originalDomain.drop 1 else originalDomain
      ("Domain=".data ++ cleanOriginDomain ++ ".".data ++ rootDomain)
        :: processCookieParts rootDomain rest
    else
      part :: processCookieParts rootDomain rest

def rewriteSetCookieHeader (headerValue : Str) (rootDomain : Str) : Str :=
  let parts := splitOnChar ';' headerValue
  joinSemi (trim (parts.headD [])
    :: (processCookieParts rootDomain parts.tail ++ ["Secure".data, "SameSite=Lax".data]))

-- Generic scan-and-replace combinator modelling String.prototype.replace with
-- a global regex: at each position the matcher either yields a replacement
-- together with the number of FURTHER characters consumed beyond the first
-- (every match of the modelled regexes consumes at least one character),
-- or the character is copied unchanged.

def scanReplF (m : Str → Option (Str × Nat)) : Nat → Str → Str
  | _, [] => []
  | 0, s => s
  | fuel + 1, c :: rest =>
    match m (c :: rest) with
    | some (repl, extra) => repl ++ scanReplF m fuel (rest.drop extra)
    | none => c :: scanReplF m fuel rest

def scanRepl (m : Str → Option (Str × Nat)) (s : Str) : Str := scanReplF m s.length s

def sqChar : Char := Char.ofNat 39

-- Matcher for the source regex location\s*=\s*(quote)(http[^quotes]+)(quote)
-- with replacement location=(sqChar)#(sqChar), used by the javascript: branch of
-- AttributeRewriter.element (src/rewrite/rewriters/attributes/attribute.mjs).

def matchLoc (s : Str) : Option (Str × Nat) :=
  match dropPre "location".data s with
  | none => none
  | some r1 =>
    match r1.dropWhile isJsSpace with
    | '=' :: r3 =>
      match r3.dropWhile isJsSpace with
      | q1 :: r5 =>
        if q1 = '"' || q1 = sqChar then
          match dropPre "http".data r5 with
          | none => none
          | some r6 =>
            let body := r6.takeWhile (fun c => !(c = '"' || c = sqChar))
            if body = [] then none
            else
              match r6.drop body.length with
              | q2 :: r7 =>
                if q2 = '"' || q2 = sqChar then
                  some ("location=".data ++ [sqChar, '#', sqChar], s.length - (r7.length + 1))
                else none
              | [] => none
        else none
      | [] => none
    | _ => none

def neutralizeLocation (val : Str) : Str := scanRepl matchLoc val

-- src/rewrite/rewriters/attributes/attribute.mjs AttributeRewriter.element,
-- modelled on the attribute value: the first guard skips empty, data: and
-- javascript: values; the second branch (neutralizeLocation) is embedded
-- faithfully even though the first guard makes it unreachable; otherwise the
-- value is resolved against the base URL, already-proxied hostnames are
-- skipped, and the proxified URL is written back.

def attributeRewriterElement (val : Str) (baseURL : URLRec) (rootDomain : Str) : Str :=
  if val = [] || isPre "data:".data val || isPre "javascript:".data val then val
  else if isPre "javascript:".data val then
    neutralizeLocation val
  else
    match resolveURL val baseURL with
    | none => val
    | some absURL =>
      if isSuf (".".data ++ rootDomain) absURL.hostname then val
      else proxyString absURL rootDomain

-- src/rewrite/rewriters/mimeType/xml.mjs rewriteXML.  proxiedURL is the
-- helper closure: it proxifies unconditionally (no already-proxied check).
-- The three text-content regex rules of the source are modelled exactly
-- (steps 2, 5 and 6 of the source, in source order); the attribute-form
-- rules (xml-stylesheet, enclosure, media:content) are not modelled.

def proxiedURL (url : Str) (base : URLRec) (root : Str) : Str :=
  match resolveURL url base with
  | some u => proxyString u root
  | none => url

def matchTagText (opn cls : Str) (f : Str → Str) (s : Str) : Option (Str × Nat) :=
  match dropPre opn s with
  | none => none
  | some r1 =>
    let url := r1.takeWhile (fun c => c ≠ '<')
    if url = [] then none
    else
      match dropPre cls (r1.drop url.length) with
      | none => none
      | some _ => some (opn ++ f url ++ cls, opn.length + url.length + cls.length - 1)

def rewriteXML (xml : Str) (base : URLRec) (root : Str) : Str :=
  let s1 := scanRepl (matchTagText "<link>".data "</link>".data (fun u => proxiedURL u base root)) xml
  let s2 := scanRepl (matchTagText "<loc>".data "</loc>".data (fun u => proxiedURL u base root)) s1
  scanRepl (matchTagText "<image:loc>".data "</image:loc>".data (fun u => proxiedURL u base root)) s2

-- src/rewrite/rewriters/mimeType/json.mjs rewriteUrlsInJson.  The JavaScript
-- object graph is modelled as a heap of numbered objects whose fields hold
-- strings, references (possibly cyclic) or other primitives; the WeakSet of
-- visited references is a Finset of object ids.  The recursion of the source
-- is modelled with a fuel parameter standing for the call stack; the
-- wrapper supplies fuel card(dom)+1, and the halting theorem shows this
-- fuel is never exhausted, on cyclic graphs included.

inductive JVal where
  | str (s : Str)
  | ref (o : Nat)
  | prim
deriving DecidableEq

abbrev JObj := List (Str × JVal)

abbrev JHeap := List (Nat × JObj)

instance : DecidableEq (JHeap × Finset Nat) := instDecidableEqProd

def domSet (heap : JHeap) : Finset Nat := (heap.map Prod.fst).toFinset

def lookupHeap (heap : JHeap) (id : Nat) : Option JObj :=
  (heap.find? (fun e => e.1 = id)).map Prod.snd

def updateField (heap : JHeap) (id : Nat) (k : Str) (v : Str) : JHeap :=
  heap.map (fun e =>
    if e.1 = id then (e.1, e.2.map (fun f => if f.1 = k then (f.1, JVal.str v) else f)) else e)

def rewriteJsonStr (val : Str) (base : URLRec) (root : Str) : Str :=
  if isPre "http:".data val || isPre "https://".data val then
    match resolveURL val base with
    | none => val
    | some absURL =>
      if !(isSuf (".".data ++ root) absURL.hostname) then proxyString absURL root
      else val
  else val

def walkJson (fuel : Nat) (heap : JHeap) (seen : Finset Nat) (id : Nat) (base : URLRec) (root : Str) : Option (JHeap × Finset Nat) :=
  match fuel with
  | 0 => none
  | fuel' + 1 =>
    match lookupHeap heap id with
    | none => some (heap, seen)
    | some fields =>
      if id ∈ seen then some (heap, seen)
      else
        fields.foldl (fun acc f =>
          match acc with
          | none => none
          | some (h, s) =>
            match f.2 with
            | JVal.str v => some (updateField h id f.1 (rewriteJsonStr v base root), s)
            | JVal.ref child => walkJson fuel' h s child base root
            | JVal.prim => some (h, s)) (some (heap, insert id seen))

def walkStep (fuel : Nat) (id : Nat) (base : URLRec) (root : Str) (acc : Option (JHeap × Finset Nat)) (f : Str × JVal) : Option (JHeap × Finset Nat) :=
  match acc with
  | none => none
  | some (h, s) =>
    match f.2 with
    | JVal.str v => some (updateField h id f.1 (rewriteJsonStr v base root), s)
    | JVal.ref child => walkJson fuel h s child base root
    | JVal.prim => some (h, s)

def rewriteUrlsInJson (heap : JHeap) (id : Nat) (base : URLRec) (root : Str) : Option (JHeap × Finset Nat) :=
  walkJson ((domSet heap).card + 1) heap ∅ id base root

-- Header multimaps (the Fetch API Headers object): name lookup, set, delete
-- and append are case-insensitive; set and append store the normalized
-- (lowercase) name, as the platform does.

abbrev HeadersL := List (Str × Str)

def hNorm (n : Str) : Str := lowerStr n

def hGet (hs : HeadersL) (n : Str) : Option Str :=
  (hs.find? (fun kv => hNorm kv.1 = hNorm n)).map Prod.snd

def hDelete (hs : HeadersL) (n : Str) : HeadersL :=
  hs.filter (fun kv => !(hNorm kv.1 = hNorm n))

def hSet (hs : HeadersL) (n v : Str) : HeadersL :=
  hDelete hs n ++ [(hNorm n, v)]

def hAppend (hs : HeadersL) (n v : Str) : HeadersL := hs ++ [(hNorm n, v)]

-- src/rewrite/rewriters/headers/sanitize.mjs sanitizeRequestHeaders: the
-- fixed removeList plus the x-cf- name test, applied over the
-- (normalized) header keys.

def removeListHdrs : List Str :=
  ["x-forwarded-for".data, "x-forwarded-proto".data, "x-real-ip".data, "via".data,
   "cf-connecting-ip".data, "cf-ipcountry".data, "cf-ray".data, "cf-visitor".data,
   "cf-access-jwt-assertion".data, "cf-access-authenticated-user-email".data,
   "cf-access-token".data]

def sanitizeRequestHeaders (hs : HeadersL) : HeadersL :=
  hs.filter (fun kv =>
    !(removeListHdrs.contains (hNorm kv.1) || isPre "x-cf-".data (hNorm kv.1)))

-- src/rewrite/rewriters/headers/identity.mjs fixIdentityHeaders: for Referer
-- and Origin, a value whose hostname ends with rootDomain is replaced by the
-- href of the resolved target; a value that fails to parse is deleted.

def fixIdentityHeader (hs : HeadersL) (config : Config) (name : Str) : HeadersL :=
  match hGet hs name with
  | none => hs
  | some val =>
    if val = [] then hs
    else
      match parseAbsURL val with
      | none => hDelete hs name
      | some u =>
        if isSuf config.rootDomain u.hostname then
          match getTargetURL val config with
          | some realTarget => hSet hs name (hrefStr realTarget)
          | none => hs
        else hs

def fixIdentityHeaders (hs : HeadersL) (config : Config) : HeadersL :=
  fixIdentityHeader (fixIdentityHeader hs config "Referer".data) config "Origin".data

-- src/rewrite/rewriters/headers/cookies.mjs sanitizeRequestCookie: keeps the
-- Cookie parts whose names match neither passthrough pattern, re-serializes,
-- and deletes the header when nothing survives.

def cookieTestOpt (p : Option (Str → Bool)) (name : Str) : Bool :=
  match p with
  | some f => f name
  | none => false

def filterCookieParts (config : Config) : List Str → List Str
  | [] => []
  | p :: rest =>
    let trimmed := trim p
    if trimmed = [] then filterCookieParts config rest
    else
      match trimmed.findIdx? (fun a => a = '=') with
      | none => filterCookieParts config rest
      | some i =>
        let name := trim (trimmed.take i)
        if cookieTestOpt config.cookiesRootPassthrough name then filterCookieParts config rest
        else if cookieTestOpt config.cookiesProxyPassthrough name then filterCookieParts config rest
        else trimmed :: filterCookieParts config rest

def sanitizeRequestCookie (hs : HeadersL) (config : Config) : HeadersL :=
  match hGet hs "Cookie".data with
  | none => hs
  | some raw =>
    if raw = [] then hs
    else
      let safeParts := filterCookieParts config (splitOnChar ';' raw)
      if safeParts ≠ [] then hSet hs "Cookie".data (joinSemi safeParts)
      else hDelete hs "Cookie".data

-- src/rewrite/request.mjs rewriteRequest: clone headers, sanitize, enforce
-- Host, rewrite identity headers, filter cookies, and build the upstream
-- request toward targetURL (method and body are forwarded unchanged).

structure RequestRec where
  url : Str
  method : Str
  headers : HeadersL
deriving DecidableEq

def rewriteRequest (originalRequest : RequestRec) (targetURL : URLRec) (config : Config) : RequestRec :=
  let h0 := originalRequest.headers
  let h1 := sanitizeRequestHeaders h0
  let h2 := hSet h1 "Host".data targetURL.hostname
  let h3 := fixIdentityHeaders h2 config
  let h4 := sanitizeRequestCookie h3 config
  ⟨hrefStr targetURL, originalRequest.method, h4⟩

-- src/handle/handlers (CFCache, Typed Config version): the edge cache write
-- path.  cfCacheSave returns the key/value pair put into the cache, or none
-- when the safety filter rejects the response.

structure ResponseRec where
  status : Nat
  headers : HeadersL
  body : Str
deriving DecidableEq

def ccFlagged (cc : Str) : Bool :=
  containsSubstr (lowerStr cc) "private".data
    || containsSubstr (lowerStr cc) "no-store".data
    || containsSubstr (lowerStr cc) "no-cache".data

def isSafeToCache (response : ResponseRec) (config : Config) : Bool :=
  if response.status ≠ 200 then false
  else
    let contentType := (hGet response.headers "Content-Type".data).getD []
    if !(config.cacheableTypes.any (fun t => containsSubstr contentType t)) then false
    else
      let cc := (hGet response.headers "Cache-Control".data).getD []
      !(ccFlagged cc)

def cfCacheSave (request : RequestRec) (response : ResponseRec) (config : Config) : Option (Str × ResponseRec) :=
  if !(isSafeToCache response config) then none
  else
    let h0 := response.headers
    let h1 := hDelete h0 "Set-Cookie".data
    let h2 := hSet h1 "Cloudflare-CDN-Cache-Control".data ("max-age=".data ++ natStr config.cacheTtl)
    let h3 := hSet h2 "Cache-Control".data ("public, max-age=".data ++ natStr config.cacheTtl)
    let h4 := hAppend h3 "Vary".data "Accept-Encoding".data
    some (request.url, ⟨response.status, h4, response.body⟩)

-- Mod framework (src/unnamed/part_005 BaseMod.shouldRun, the registry
-- src/mods/registry.mjs, and the binding loop of
-- src/rewrite/rewriters/html.mjs step 4, v8.0.0).  A mod definition carries
-- the field className the registry sets AND the field Class the binding loop
-- reads (new modDef.Class(...args)): no registry entry sets Class, so
-- reading it in JavaScript yields undefined, modelled as an Option that is
-- none for every MOD_REGISTRY entry.  The registry override pattern keeps
-- JavaScript truthiness: undefined or the empty string fall back to the
-- pattern set by the instance constructor.

structure ModDef where
  envKey : Str
  selector : Str
  className : Str
  classField : Option Str
  domainPatternOverride : Option Str
  instancePattern : Str
deriving DecidableEq

def profanityMod : ModDef :=
  ⟨"MOD_PROFANITY_FILTER".data, "*".data, "ProfanityMod".data, none,
    some "*".data, "*".data⟩

def MOD_REGISTRY : List ModDef := [profanityMod]

def shouldRun (domainPattern : Str) (host : Str) : Bool :=
  if domainPattern = "*".data then true
  else if isPre "*.".data domainPattern then
    let root := domainPattern.drop 2
    host = root || isSuf (".".data ++ root) host
  else host = domainPattern

def effectivePattern (m : ModDef) : Str :=
  match m.domainPatternOverride with
  | some p => if p = [] then m.instancePattern else p
  | none => m.instancePattern

def modEnabled (config : Config) (m : ModDef) : Bool :=
  config.modsEnabled.contains m.envKey

-- The outcome of the loop body of html.mjs step 4 for one registry entry:
-- skipped when disabled; otherwise new modDef.Class(...args) runs FIRST, and
-- an absent Class constructor (new undefined(...)) throws a TypeError before
-- shouldRun is ever consulted; only when instantiation succeeds does the
-- shouldRun gate decide binding.

inductive BindOutcome where
  | bound
  | notBound
  | thrown
deriving DecidableEq

def modBindOutcome (config : Config) (m : ModDef) (targetHost : Str) : BindOutcome :=
  if modEnabled config m then
    match m.classField with
    | none => BindOutcome.thrown
    | some _ =>
      if shouldRun (effectivePattern m) targetHost then BindOutcome.bound
      else BindOutcome.notBound
  else BindOutcome.notBound

def modBinds (config : Config) (m : ModDef) (targetHost : Str) : Bool :=
  modBindOutcome config m targetHost = BindOutcome.bound

-- A concrete configuration used by closed evaluation theorems.

def cfgP : Config := ⟨"p.example".data, true, 3600, [], [], none, none⟩

def cfgMods : Config :=
  ⟨"p.example".data, true, 3600, [], ["MOD_PROFANITY_FILTER".data], none, none⟩

-- Concrete cache-write scenario used by closed evaluation theorems.

def cfgC9 : Config := ⟨"p.example".data, true, 60, ["text/html".data], [], none, none⟩

def reqC9 : RequestRec := ⟨"https://h.p.example/".data, "GET".data, []⟩

def respC9 : ResponseRec :=
  ⟨200, [("Content-Type".data, "text/html".data), ("Set-Cookie".data, "a=b".data)],
    "b".data⟩

def storedC9 : ResponseRec :=
  ⟨200, [("Content-Type".data, "text/html".data),
         ("cloudflare-cdn-cache-control".data, "max-age=60".data),
         ("cache-control".data, "public, max-age=60".data),
         ("vary".data, "Accept-Encoding".data)], "b".data⟩

-- Theorems

/-- C1: the domain lock is broken in the code: getTargetURL checks
hostname.endsWith(rootDomain) without the leading dot, so the hostname
evilp.example (which neither equals p.example nor ends with .p.example)
is accepted and resolved to the upstream target https://evi/steal,
which would then be fetched. -/
theorem getTargetURL_domain_lock_bug :
    getTargetURL "https://evilp.example/steal".data cfgP
        = some ⟨"evi".data, "/steal".data, []⟩
      ∧ "evilp.example".data ≠ "p.example".data
      ∧ isSuf ".p.example".data "evilp.example".data = false := by
  decide

/-- C2 counterexample: rewriteSetCookieHeader does not behave as claimed.
A cookie without a Domain attribute (name not starting with __Host-) gets
no Domain attribute at all, and a cookie with Domain=.x.com gets
Domain=x.com.p.example, not Domain=p.example. -/
theorem rewriteSetCookieHeader_counterexample :
    rewriteSetCookieHeader "sid=abc".data "p.example".data
        = "sid=abc; Secure; SameSite=Lax".data
      ∧ containsSubstr (rewriteSetCookieHeader "sid=abc".data "p.example".data)
          "Domain=".data = false
      ∧ isPre "__Host-".data "sid=abc".data = false
      ∧ rewriteSetCookieHeader "sid=abc; Domain=.x.com; Secure; SameSite=None".data
          "p.example".data
        = "sid=abc; Domain=x.com.p.example; Secure; SameSite=Lax".data
      ∧ containsSubstr
          (rewriteSetCookieHeader "sid=abc; Domain=.x.com; Secure; SameSite=None".data
            "p.example".data)
          "Domain=p.example".data = false := by
  decide

/-- C3 counterexample: the round trip fails for a path beginning with two
slashes: the proxy URL https://h.p.example//a?q=1 resolves to the target
https://a/?q=1 (the path is treated as protocol-relative by the URL
constructor), not to https://h//a?q=1. -/
theorem getTargetURL_roundtrip_counterexample :
    getTargetURL "https://h.p.example//a?q=1".data cfgP
        = some ⟨"a".data, "/".data, "?q=1".data⟩
      ∧ getTargetURL "https://h.p.example//a?q=1".data cfgP
        ≠ some ⟨"h".data, "//a".data, "?q=1".data⟩ := by
  decide

/-- C4 counterexample: proxification by the attribute rewriter is NOT
idempotent.  The guard skips only empty, data: and javascript: values, and
new URL("mailto:a@b", base) succeeds with an empty hostname and the opaque
pathname a@b, so the first pass writes https://.p.examplea@b; the second
pass parses that absolute URL with userinfo .p.examplea and host b and
rewrites it again, to https://b.p.example/. -/
theorem attributeRewriterElement_mailto_counterexample :
    attributeRewriterElement "mailto:a@b".data ⟨"site.com".data, "/".data, []⟩
        "p.example".data = "https://.p.examplea@b".data
      ∧ attributeRewriterElement (attributeRewriterElement "mailto:a@b".data
            ⟨"site.com".data, "/".data, []⟩ "p.example".data)
          ⟨"site.com".data, "/".data, []⟩ "p.example".data
        = "https://b.p.example/".data
      ∧ attributeRewriterElement (attributeRewriterElement "mailto:a@b".data
            ⟨"site.com".data, "/".data, []⟩ "p.example".data)
          ⟨"site.com".data, "/".data, []⟩ "p.example".data
        ≠ attributeRewriterElement "mailto:a@b".data ⟨"site.com".data, "/".data, []⟩
            "p.example".data := by
  decide

/-- C5 counterexample: rewriteXML does not skip already-proxied URLs: a loc
element whose URL is already under .p.example is proxified again
(double-proxied) instead of being left unchanged. -/
theorem rewriteXML_skip_counterexample :
    rewriteXML "<loc>https://a.com.p.example/x</loc>".data
        ⟨"b.com".data, "/".data, []⟩ "p.example".data
        = "<loc>https://a.com.p.example.p.example/x</loc>".data
      ∧ rewriteXML "<loc>https://a.com.p.example/x</loc>".data
          ⟨"b.com".data, "/".data, []⟩ "p.example".data
        ≠ "<loc>https://a.com.p.example/x</loc>".data := by
  decide

/-- C7: the javascript: neutralization branch of AttributeRewriter.element is
dead code: the first guard returns on every javascript: value, so an
attribute value containing a location assignment to an http URL is left
unchanged, although the neutralizer itself (embedded faithfully) would have
rewritten it. -/
theorem attributeRewriterElement_javascript_dead :
    attributeRewriterElement "javascript:location = \"http://evil.example/\"".data
        ⟨"site.com".data, "/".data, []⟩ "p.example".data
        = "javascript:location = \"http://evil.example/\"".data
      ∧ neutralizeLocation "javascript:location = \"http://evil.example/\"".data
        ≠ "javascript:location = \"http://evil.example/\"".data := by
  decide

/-- C8 counterexample: rewriteRequest does not strip every header whose name
begins with cf-: the header cf-access-client-id is not in the fixed remove
list of sanitizeRequestHeaders and survives into the outbound request. -/
theorem rewriteRequest_cf_leak_counterexample :
    ("cf-access-client-id".data, "secret".data)
        ∈ (rewriteRequest
            ⟨"https://foo.com.p.example/a".data, "GET".data,
              [("cf-access-client-id".data, "secret".data)]⟩
            ⟨"foo.com".data, "/a".data, []⟩ cfgP).headers
      ∧ isPre "cf-".data "cf-access-client-id".data = true := by
  decide

-- String toolkit lemmas

theorem isPre_refl_append (p t : Str) : isPre p (p ++ t) = true := by
  induction p with
  | nil => rfl
  | cons a ps ih => simp [isPre, ih]

theorem isPre_mono {p s : Str} (t : Str) (h : isPre p s = true) : isPre p (s ++ t) = true := by
  induction p generalizing s with
  | nil => rfl
  | cons a ps ih =>
    cases s with
    | nil => simp [isPre] at h
    | cons c cs =>
      simp only [isPre, List.cons_append, Bool.and_eq_true, decide_eq_true_eq] at h ⊢
      exact ⟨h.1, ih h.2⟩

theorem dropPre_eq_some {p s r : Str} : dropPre p s = some r ↔ s = p ++ r := by
  induction p generalizing s with
  | nil => simp [dropPre, eq_comm]
  | cons a ps ih =>
    cases s with
    | nil => simp [dropPre]
    | cons c cs =>
      by_cases hac : a = c
      · subst hac
        simp [dropPre, ih]
      · simp [dropPre, hac, Ne.symm hac]

theorem dropPre_refl_append (p r : Str) : dropPre p (p ++ r) = some r :=
  dropPre_eq_some.mpr rfl

theorem isSuf_suffix_append (p t : Str) : isSuf p (t ++ p) = true := by
  unfold isSuf
  rw [List.reverse_append]
  exact isPre_refl_append _ _

theorem takeWhile_append_all {p : Char → Bool} {l₁ : Str} (l₂ : Str)
    (h : ∀ a ∈ l₁, p a = true) :
    (l₁ ++ l₂).takeWhile p = l₁ ++ l₂.takeWhile p := by
  induction l₁ with
  | nil => rfl
  | cons a l ih =>
    have ha := h a (by simp)
    simp [List.takeWhile_cons, ha, ih (fun b hb => h b (by simp [hb]))]

theorem takeWhile_all {p : Char → Bool} {l : Str} (h : ∀ a ∈ l, p a = true) :
    l.takeWhile p = l := by
  have := takeWhile_append_all ([] : Str) h
  simpa using this

theorem takeWhile_cons_false {p : Char → Bool} {a : Char} (l : Str) (h : p a = false) :
    (a :: l).takeWhile p = [] := by
  simp [List.takeWhile_cons, h]

theorem drop_takeWhile_length {p : Char → Bool} (l : Str) :
    l.drop (l.takeWhile p).length = l.dropWhile p := by
  induction l with
  | nil => rfl
  | cons a l ih =>
    by_cases hpa : p a
    · simp [List.takeWhile_cons, List.dropWhile_cons, hpa, ih]
    · simp [List.takeWhile_cons, List.dropWhile_cons, hpa]

-- URL parser lemmas

theorem notDelim_of_good {c : Char} (h : goodHostChar c = true) : notDelim c = true := by
  simp only [goodHostChar, Bool.not_eq_true', Bool.or_eq_false_iff, decide_eq_false_iff_not] at h
  simp only [notDelim, Bool.not_eq_true', Bool.or_eq_false_iff, decide_eq_false_iff_not]
  exact ⟨⟨h.1.1.1.1, h.1.1.1.2⟩, h.1.1.2⟩

theorem good_not_at_colon {c : Char} (h : goodHostChar c = true) :
    (c = '@' || c = ':') = false := by
  simp only [goodHostChar, Bool.not_eq_true', Bool.or_eq_false_iff, decide_eq_false_iff_not] at h
  simp only [Bool.or_eq_false_iff, decide_eq_false_iff_not]
  exact ⟨h.1.2, h.2⟩

theorem reverse_takeWhile_no_at {h : Str} (hg : ∀ c ∈ h, goodHostChar c = true) :
    (h.reverse.takeWhile (fun c => c ≠ '@')).reverse = h := by
  have hall : ∀ a ∈ h.reverse, (fun c => decide (c ≠ '@')) a = true := by
    intro a ha
    have hgc := hg a (List.mem_reverse.mp ha)
    simp only [goodHostChar, Bool.not_eq_true', Bool.or_eq_false_iff,
      decide_eq_false_iff_not] at hgc
    simpa using hgc.1.2
  rw [takeWhile_all hall, List.reverse_reverse]

theorem takeWhile_no_colon {h : Str} (hg : ∀ c ∈ h, goodHostChar c = true) :
    h.takeWhile (fun c => c ≠ ':') = h := by
  apply takeWhile_all
  intro a ha
  have hgc := hg a ha
  simp only [goodHostChar, Bool.not_eq_true', Bool.or_eq_false_iff,
    decide_eq_false_iff_not] at hgc
  simpa using hgc.2

theorem parseAfterScheme_split {host p q : Str}
    (hh : host ≠ []) (hg : ∀ c ∈ host, goodHostChar c = true)
    (hp : isPre "/".data p = true)
    (hpq : ∀ c ∈ p, c ≠ '?') (hph : ∀ c ∈ p, c ≠ '#')
    (hq : q = [] ∨ isPre "?".data q = true) (hqh : ∀ c ∈ q, c ≠ '#') :
    parseAfterScheme (host ++ p ++ q) = some ⟨host, p, q⟩ := by
  obtain ⟨p', rfl⟩ : ∃ p', p = '/' :: p' := by
    cases p with
    | nil => simp [isPre] at hp
    | cons a p' =>
      simp only [isPre, String.data, Bool.and_eq_true, decide_eq_true_eq] at hp
      exact ⟨p', by rw [← hp.1]⟩
  have hauth : (host ++ '/' :: p' ++ q).takeWhile notDelim = host := by
    rw [List.append_assoc, List.cons_append]
    rw [takeWhile_append_all _ (fun a ha => notDelim_of_good (hg a ha))]
    rw [takeWhile_cons_false _ (by simp [notDelim])]
    simp
  have hdrop : (host ++ '/' :: p' ++ q).drop host.length = '/' :: p' ++ q := by
    rw [List.append_assoc, List.drop_left, List.cons_append]
  have hhp : (host.reverse.takeWhile (fun c => c ≠ '@')).reverse = host :=
    reverse_takeWhile_no_at hg
  have hhost : host.takeWhile (fun c => c ≠ ':') = host :=
    takeWhile_no_colon hg
  have hbh : ('/' :: p' ++ q).takeWhile (fun c => decide (c ≠ '#')) = '/' :: p' ++ q := by
    apply takeWhile_all
    intro a ha
    simp only [List.cons_append, List.mem_cons, List.mem_append] at ha
    rcases ha with rfl | ha | ha
    · simp
    · simp [hph a (by simp [ha])]
    · simp [hqh a ha]
  have hqq : q.takeWhile (fun c => decide (c ≠ '?')) = [] := by
    rcases hq with rfl | hq
    · rfl
    · obtain ⟨q', rfl⟩ : ∃ q', q = '?' :: q' := by
        cases q with
        | nil => simp [isPre] at hq
        | cons b q' =>
          simp only [isPre, String.data, Bool.and_eq_true, decide_eq_true_eq] at hq
          exact ⟨q', by rw [← hq.1]⟩
      exact takeWhile_cons_false _ (by simp)
  have h1 : ∀ a ∈ p', (fun c => decide (c ≠ '?')) a = true := by
    intro a ha
    simp [hpq a (by simp [ha])]
  have hpn : ('/' :: p' ++ q).takeWhile (fun c => decide (c ≠ '?')) = '/' :: p' := by
    rw [List.cons_append, List.takeWhile_cons]
    rw [takeWhile_append_all q h1, hqq]
    simp
  have hsearch : ('/' :: p' ++ q).drop ('/' :: p').length = q := by
    rw [List.cons_append]
    exact List.drop_left _ _
  simp only [parseAfterScheme, hauth, hhp, hhost, List.drop_length, hdrop,
    hbh, hpn, hsearch]
  simp [hh, portOk]

theorem parseAfterScheme_host {host : Str}
    (hh : host ≠ []) (hg : ∀ c ∈ host, goodHostChar c = true) :
    parseAfterScheme host = some ⟨host, "/".data, []⟩ := by
  have hauth : host.takeWhile notDelim = host :=
    takeWhile_all (fun a ha => notDelim_of_good (hg a ha))
  have hhp : (host.reverse.takeWhile (fun c => c ≠ '@')).reverse = host :=
    reverse_takeWhile_no_at hg
  have hhost : host.takeWhile (fun c => c ≠ ':') = host :=
    takeWhile_no_colon hg
  simp only [parseAfterScheme, hauth, hhp, hhost, List.drop_length,
    List.takeWhile_nil, List.dropWhile_nil, List.drop_nil, List.length_nil]
  simp [hh, portOk]

theorem takeWhile_eq_cons {p : Char → Bool} {l : Str} {b : Char} {t : Str}
    (h : l.takeWhile p = b :: t) : ∃ l', l = b :: l' ∧ p b = true := by
  cases l with
  | nil => simp at h
  | cons a l' =>
    rw [List.takeWhile_cons] at h
    by_cases hpa : p a
    · simp only [hpa, if_true, List.cons.injEq] at h
      exact ⟨l', by rw [h.1], by rw [← h.1]; exact hpa⟩
    · simp [hpa] at h

theorem dropWhile_eq_cons {p : Char → Bool} {l : Str} {b : Char} {t : Str}
    (h : l.dropWhile p = b :: t) : p b = false := by
  induction l with
  | nil => simp at h
  | cons a l' ih =>
    rw [List.dropWhile_cons] at h
    by_cases hpa : p a
    · simp only [hpa, if_true] at h
      exact ih h
    · simp only [Bool.not_eq_true] at hpa
      simp only [hpa, Bool.false_eq_true, if_false, List.cons.injEq] at h
      rw [← h.1]
      exact hpa

theorem mem_of_mem_takeWhile {p : Char → Bool} {l : Str} {a : Char}
    (h : a ∈ l.takeWhile p) : a ∈ l :=
  (List.takeWhile_sublist p).mem h

theorem mem_of_mem_dropWhile {p : Char → Bool} {l : Str} {a : Char}
    (h : a ∈ l.dropWhile p) : a ∈ l :=
  (List.dropWhile_sublist p).mem h

theorem parseAfterScheme_inv {rest : Str} {uh up us : Str}
    (h : parseAfterScheme rest = some ⟨uh, up, us⟩) :
    uh ≠ [] ∧ (∀ c ∈ uh, goodHostChar c = true)
      ∧ up ≠ [] ∧ isPre "/".data up = true
      ∧ (∀ c ∈ up, c ≠ '?') ∧ (∀ c ∈ up, c ≠ '#')
      ∧ (us = [] ∨ isPre "?".data us = true)
      ∧ (∀ c ∈ us, c ≠ '#') := by
  simp only [parseAfterScheme, drop_takeWhile_length] at h
  set A := rest.takeWhile notDelim with hAdef
  set HP := (A.reverse.takeWhile (fun c => c ≠ '@')).reverse with hHPdef
  set H := HP.takeWhile (fun c => c ≠ ':') with hHdef
  by_cases h1 : H = []
  · rw [if_pos h1] at h
    exact absurd h (by simp)
  rw [if_neg h1] at h
  by_cases h2 : (!portOk (HP.dropWhile (fun c => c ≠ ':'))) = true
  · rw [if_pos h2] at h
    exact absurd h (by simp)
  rw [if_neg h2] at h
  rw [Option.some_inj, URLRec.mk.injEq] at h
  obtain ⟨hA, hP, hS⟩ := h
  have hhead : ∀ b t,
      ((rest.dropWhile notDelim).takeWhile (fun c => c ≠ '#')).takeWhile
          (fun c => c ≠ '?') = b :: t →
        b = '/' := by
    intro b t hb
    obtain ⟨bh', hbh', hbq⟩ := takeWhile_eq_cons hb
    obtain ⟨af', haf', hbhash⟩ := takeWhile_eq_cons hbh'
    have hnd : notDelim b = false := dropWhile_eq_cons haf'
    simp only [notDelim, Bool.not_eq_false', Bool.or_eq_true, decide_eq_true_eq] at hnd
    simp only [decide_eq_true_eq] at hbq hbhash
    rcases hnd with (hb1 | hb2) | hb3
    · exact hb1
    · exact absurd hb2 hbq
    · exact absurd hb3 hbhash
  refine ⟨?_, ?_, ?_, ?_, ?_, ?_, ?_, ?_⟩
  · rw [← hA]
    exact h1
  · rw [← hA]
    intro c hc
    rw [hHdef] at hc
    have hcolon : ¬(c = ':') := by simpa using List.mem_takeWhile_imp hc
    have hcHP : c ∈ HP := mem_of_mem_takeWhile hc
    rw [hHPdef] at hcHP
    have hcAt : c ∈ A.reverse.takeWhile (fun c => c ≠ '@') := List.mem_reverse.mp hcHP
    have hat : ¬(c = '@') := by simpa using List.mem_takeWhile_imp hcAt
    have hcA : c ∈ A := List.mem_reverse.mp (mem_of_mem_takeWhile hcAt)
    rw [hAdef] at hcA
    have hnd : notDelim c = true := List.mem_takeWhile_imp hcA
    simp only [notDelim, Bool.not_eq_true', Bool.or_eq_false_iff,
      decide_eq_false_iff_not] at hnd
    simp only [goodHostChar, Bool.not_eq_true', Bool.or_eq_false_iff,
      decide_eq_false_iff_not]
    exact ⟨⟨⟨⟨hnd.1.1, hnd.1.2⟩, hnd.2⟩, hat⟩, hcolon⟩
  · rw [← hP]
    by_cases hpn : ((rest.dropWhile notDelim).takeWhile (fun c => c ≠ '#')).takeWhile
        (fun c => c ≠ '?') = []
    · rw [if_pos hpn]; simp
    · rw [if_neg hpn]; exact hpn
  · rw [← hP]
    by_cases hpn : ((rest.dropWhile notDelim).takeWhile (fun c => c ≠ '#')).takeWhile
        (fun c => c ≠ '?') = []
    · rw [if_pos hpn]; rfl
    · rw [if_neg hpn]
      obtain ⟨b, t, hbt⟩ := List.exists_cons_of_ne_nil hpn
      rw [hbt]
      rw [hhead b t hbt]
      simp [isPre]
  · rw [← hP]
    by_cases hpn : ((rest.dropWhile notDelim).takeWhile (fun c => c ≠ '#')).takeWhile
        (fun c => c ≠ '?') = []
    · rw [if_pos hpn]
      intro c hc
      simp only [List.mem_singleton] at hc
      subst hc
      decide
    · rw [if_neg hpn]
      intro c hc
      simpa using List.mem_takeWhile_imp hc
  · rw [← hP]
    by_cases hpn : ((rest.dropWhile notDelim).takeWhile (fun c => c ≠ '#')).takeWhile
        (fun c => c ≠ '?') = []
    · rw [if_pos hpn]
      intro c hc
      simp only [List.mem_singleton] at hc
      subst hc
      decide
    · rw [if_neg hpn]
      intro c hc
      simpa using List.mem_takeWhile_imp (mem_of_mem_takeWhile hc)
  · rw [← hS]
    rcases hsr : ((rest.dropWhile notDelim).takeWhile (fun c => c ≠ '#')).dropWhile
        (fun c => c ≠ '?') with _ | ⟨b, t⟩
    · exact Or.inl rfl
    · have hb : (fun c => decide (c ≠ '?')) b = false := dropWhile_eq_cons hsr
      simp only [decide_eq_false_iff_not, not_not] at hb
      subst hb
      exact Or.inr (by simp [isPre])
  · rw [← hS]
    intro c hc
    simpa using List.mem_takeWhile_imp (mem_of_mem_dropWhile hc)

theorem isPre_cons_false {a b : Char} {ps s : Str} (h : a ≠ b) :
    isPre (a :: ps) (b :: s) = false := by
  simp [isPre, h]

theorem isPre_single {c : Char} {s : Str} (h : isPre [c] s = true) :
    ∃ t, s = c :: t := by
  cases s with
  | nil => simp [isPre] at h
  | cons b t =>
    simp only [isPre, Bool.and_eq_true, decide_eq_true_eq] at h
    exact ⟨t, by rw [h.1]⟩

theorem parseAbsURL_inv {s : Str} {uh up us : Str}
    (h : parseAbsURL s = some ⟨uh, up, us⟩) :
    uh ≠ [] ∧ (∀ c ∈ uh, goodHostChar c = true)
      ∧ up ≠ [] ∧ isPre "/".data up = true
      ∧ (∀ c ∈ up, c ≠ '?') ∧ (∀ c ∈ up, c ≠ '#')
      ∧ (us = [] ∨ isPre "?".data us = true)
      ∧ (∀ c ∈ us, c ≠ '#') := by
  unfold parseAbsURL at h
  rcases hd : dropPre "https://".data s with _ | rest
  · rw [hd] at h
    rcases hd2 : dropPre "http://".data s with _ | rest2
    · rw [hd2] at h
      exact absurd h (by simp)
    · rw [hd2] at h
      exact parseAfterScheme_inv h
  · rw [hd] at h
    exact parseAfterScheme_inv h

theorem resolveURL_inv {val : Str} {base : URLRec} {uh up us : Str}
    (hb1 : base.hostname ≠ []) (hb2 : ∀ c ∈ base.hostname, goodHostChar c = true)
    (hne : uh ≠ [])
    (h : resolveURL val base = some ⟨uh, up, us⟩) :
    uh ≠ [] ∧ (∀ c ∈ uh, goodHostChar c = true)
      ∧ up ≠ [] ∧ isPre "/".data up = true
      ∧ (∀ c ∈ up, c ≠ '?') ∧ (∀ c ∈ up, c ≠ '#')
      ∧ (us = [] ∨ isPre "?".data us = true)
      ∧ (∀ c ∈ us, c ≠ '#') := by
  unfold resolveURL at h
  by_cases habs : (isPre "https://".data val || isPre "http://".data val) = true
  · rw [if_pos habs] at h
    exact parseAbsURL_inv h
  rw [if_neg habs] at h
  by_cases hpro : isPre "//".data val = true
  · rw [if_pos hpro] at h
    exact parseAbsURL_inv h
  rw [if_neg hpro] at h
  by_cases hsl : isPre "/".data val = true
  case neg =>
    rw [if_neg hsl] at h
    split at h
    · split at h
      · exact absurd h (by simp)
      · rw [Option.some_inj, URLRec.mk.injEq] at h
        exact absurd h.1.symm hne
    · exact absurd h (by simp)
  rw [if_pos hsl] at h
  obtain ⟨v', rfl⟩ : ∃ t, val = '/' :: t := isPre_single hsl
  rw [Option.some_inj, URLRec.mk.injEq] at h
  obtain ⟨hA, hP, hS⟩ := h
  have hbh : ('/' :: v').takeWhile (fun c => decide (c ≠ '#'))
      = '/' :: v'.takeWhile (fun c => decide (c ≠ '#')) := by
    rw [List.takeWhile_cons]
    simp
  have hpn : (('/' :: v').takeWhile (fun c => decide (c ≠ '#'))).takeWhile
        (fun c => decide (c ≠ '?'))
      = '/' :: (v'.takeWhile (fun c => decide (c ≠ '#'))).takeWhile
        (fun c => decide (c ≠ '?')) := by
    rw [hbh, List.takeWhile_cons]
    simp
  refine ⟨?_, ?_, ?_, ?_, ?_, ?_, ?_, ?_⟩
  · rw [← hA]; exact hb1
  · rw [← hA]; exact hb2
  · rw [← hP, hpn]; simp
  · rw [← hP, hpn]; simp [isPre]
  · rw [← hP]
    intro c hc
    simpa using List.mem_takeWhile_imp hc
  · rw [← hP]
    intro c hc
    simpa using List.mem_takeWhile_imp (mem_of_mem_takeWhile hc)
  · rw [← hS, drop_takeWhile_length]
    rcases hsr : (('/' :: v').takeWhile (fun c => decide (c ≠ '#'))).dropWhile
        (fun c => decide (c ≠ '?')) with _ | ⟨b, t⟩
    · exact Or.inl rfl
    · have hb : (fun c => decide (c ≠ '?')) b = false := dropWhile_eq_cons hsr
      simp only [decide_eq_false_iff_not, not_not] at hb
      subst hb
      exact Or.inr (by simp [isPre])
  · rw [← hS, drop_takeWhile_length]
    intro c hc
    simpa using List.mem_takeWhile_imp (mem_of_mem_dropWhile hc)

theorem isPre_https_of_slash {s : Str} : isPre "https://".data ('/' :: s) = false := by
  rw [show "https://".data = 'h' :: "ttps://".data from rfl]
  exact isPre_cons_false (by decide)

theorem isPre_http_of_slash {s : Str} : isPre "http://".data ('/' :: s) = false := by
  rw [show "http://".data = 'h' :: "ttp://".data from rfl]
  exact isPre_cons_false (by decide)

theorem resolveURL_rel {p q : Str} (base : URLRec)
    (hp : isPre "/".data p = true)
    (hpp : isPre "//".data (p ++ q) = false)
    (hpq : ∀ c ∈ p, c ≠ '?') (hph : ∀ c ∈ p, c ≠ '#')
    (hq : q = [] ∨ isPre "?".data q = true) (hqh : ∀ c ∈ q, c ≠ '#') :
    resolveURL (p ++ q) base = some ⟨base.hostname, p, q⟩ := by
  obtain ⟨p', rfl⟩ : ∃ t, p = '/' :: t := isPre_single hp
  have hcons : ('/' :: p') ++ q = '/' :: (p' ++ q) := List.cons_append _ _ _
  have habs : (isPre "https://".data (('/' :: p') ++ q)
      || isPre "http://".data (('/' :: p') ++ q)) = false := by
    rw [hcons, isPre_https_of_slash, isPre_http_of_slash]
    rfl
  have hsl : isPre "/".data (('/' :: p') ++ q) = true := by
    rw [hcons]
    rw [show "/".data = ['/'] from rfl]
    simp [isPre]
  have hbh : (('/' :: p') ++ q).takeWhile (fun c => decide (c ≠ '#'))
      = ('/' :: p') ++ q := by
    apply takeWhile_all
    intro a ha
    rw [hcons] at ha
    simp only [List.mem_cons, List.mem_append] at ha
    rcases ha with rfl | ha | ha
    · simp
    · simp [hph a (by simp [ha])]
    · simp [hqh a ha]
  have hqq : q.takeWhile (fun c => decide (c ≠ '?')) = [] := by
    rcases hq with rfl | hq
    · rfl
    · obtain ⟨q', rfl⟩ : ∃ t, q = '?' :: t := by
        rw [show "?".data = ['?'] from rfl] at hq
        exact isPre_single hq
      exact takeWhile_cons_false _ (by simp)
  have h1 : ∀ a ∈ p', (fun c => decide (c ≠ '?')) a = true := by
    intro a ha
    simp [hpq a (by simp [ha])]
  have hpn : (('/' :: p') ++ q).takeWhile (fun c => decide (c ≠ '?')) = '/' :: p' := by
    rw [hcons, List.takeWhile_cons]
    rw [takeWhile_append_all q h1, hqq]
    simp
  have hsearch : (('/' :: p') ++ q).drop ('/' :: p').length = q := List.drop_left _ _
  have hpp' : isPre "//".data ('/' :: (p' ++ q)) = false := by
    rw [← hcons]
    exact hpp
  rw [resolveURL, habs, if_neg (by simp), if_neg (by simp [hpp']), if_pos hsl]
  simp only [hbh, hpn, hsearch]

/-- C3 (amended): round trip of the URL mapping.  For every non-empty target
host, every path that begins with a single slash (paths beginning with two
slashes are treated as protocol-relative by the URL constructor and break
the round trip, see the counterexample) and every non-empty query,
getTargetURL applied to the ProxyURL https(colon)//host.root path query
yields exactly the target with hostname host (taken verbatim, no
dash-to-dot transformation), the same path and the same query. -/
theorem getTargetURL_roundtrip (host root p q : Str) (config : Config)
    (hcfg : config.rootDomain = root)
    (hh : host ≠ []) (hg : ∀ c ∈ host, goodHostChar c = true)
    (hrg : ∀ c ∈ root, goodHostChar c = true)
    (hp : isPre "/".data p = true) (hpp : isPre "//".data p = false)
    (hpq : ∀ c ∈ p, c ≠ '?') (hph : ∀ c ∈ p, c ≠ '#')
    (hq : isPre "?".data q = true) (hqh : ∀ c ∈ q, c ≠ '#') :
    getTargetURL ("https://".data ++ host ++ ".".data ++ root ++ p ++ q) config
      = some ⟨host, p, q⟩ := by
  have hgH : ∀ c ∈ host ++ ".".data ++ root, goodHostChar c = true := by
    intro c hc
    simp only [List.append_assoc, List.mem_append] at hc
    rcases hc with hc | hc | hc
    · exact hg c hc
    · simp only [List.mem_singleton.mp (by simpa using hc)]
      decide
    · exact hrg c hc
  have hHne : host ++ ".".data ++ root ≠ [] := by
    simp [hh]
  have hflat : "https://".data ++ host ++ ".".data ++ root ++ p ++ q
      = "https://".data ++ ((host ++ ".".data ++ root) ++ p ++ q) := by
    simp [List.append_assoc]
  have hparse : parseAbsURL ("https://".data ++ ((host ++ ".".data ++ root) ++ p ++ q))
      = some ⟨host ++ ".".data ++ root, p, q⟩ := by
    unfold parseAbsURL
    rw [dropPre_refl_append]
    exact parseAfterScheme_split hHne hgH hp hpq hph (Or.inr hq) hqh
  have hsuf : isSuf root (host ++ ".".data ++ root) = true :=
    isSuf_suffix_append root (host ++ ".".data)
  have hlen : (host ++ ".".data ++ root).length - (root.length + 1) = host.length := by
    simp only [List.length_append, List.length_singleton]
    omega
  have htake : (host ++ ".".data ++ root).take host.length = host := by
    rw [List.append_assoc]
    exact List.take_left _ _
  have hbase : parseAbsURL ("https://".data ++ host) = some ⟨host, "/".data, []⟩ := by
    unfold parseAbsURL
    rw [dropPre_refl_append]
    exact parseAfterScheme_host hh hg
  have hppq : isPre "//".data (p ++ q) = false := by
    obtain ⟨p', rfl⟩ : ∃ t, p = '/' :: t := isPre_single hp
    cases p' with
    | nil =>
      obtain ⟨q', rfl⟩ : ∃ t, q = '?' :: t :=
        isPre_single (by rw [show "?".data = ['?'] from rfl] at hq; exact hq)
      simp [isPre]
    | cons c rest =>
      have hc : ¬('/' = c) := by
        intro hcc
        rw [show "//".data = ['/', '/'] from rfl] at hpp
        simp [isPre, ← hcc] at hpp
      rw [show "//".data = ['/', '/'] from rfl]
      simp [isPre, hc]
  have hres : resolveURL (p ++ q) ⟨host, "/".data, []⟩ = some ⟨host, p, q⟩ :=
    resolveURL_rel _ hp hppq hpq hph (Or.inr hq) hqh
  rw [hflat]
  simp only [getTargetURL, hparse, hcfg, hsuf, Bool.not_true, Bool.false_eq_true,
    if_false, hlen, htake, if_neg hh, hbase, hres]

theorem attr_guard_components {val : Str}
    (hg1 : (decide (val = []) || isPre "data:".data val || isPre "javascript:".data val) = false) :
    decide (val = []) = false ∧ isPre "data:".data val = false
      ∧ isPre "javascript:".data val = false := by
  simp only [Bool.or_eq_false_iff] at hg1
  exact ⟨hg1.1.1, hg1.1.2, hg1.2⟩

theorem attr_skip_proxied {val : Str} {base : URLRec} {root : Str} {u : URLRec}
    (hres : resolveURL val base = some u)
    (hsuf : isSuf (".".data ++ root) u.hostname = true) :
    attributeRewriterElement val base root = val := by
  unfold attributeRewriterElement
  by_cases hg1 : (decide (val = []) || isPre "data:".data val || isPre "javascript:".data val) = true
  · rw [if_pos hg1]
  · obtain ⟨-, -, hjs⟩ := attr_guard_components (Bool.eq_false_iff.mpr hg1)
    rw [if_neg hg1, if_neg (by rw [hjs]; simp)]
    simp only [hres, hsuf, if_true]

theorem attr_on_proxy_shape (h p s root : Str) (base : URLRec)
    (hh : h ≠ []) (hgh : ∀ c ∈ h, goodHostChar c = true)
    (hrg : ∀ c ∈ root, goodHostChar c = true)
    (hp : isPre "/".data p = true)
    (hpq : ∀ c ∈ p, c ≠ '?') (hph : ∀ c ∈ p, c ≠ '#')
    (hs : s = [] ∨ isPre "?".data s = true) (hsh : ∀ c ∈ s, c ≠ '#') :
    attributeRewriterElement ("https://".data ++ h ++ ".".data ++ root ++ p ++ s) base root
      = "https://".data ++ h ++ ".".data ++ root ++ p ++ s := by
  have hflat : "https://".data ++ h ++ ".".data ++ root ++ p ++ s
      = "https://".data ++ ((h ++ ".".data ++ root) ++ p ++ s) := by
    simp [List.append_assoc]
  have hgH : ∀ c ∈ h ++ ".".data ++ root, goodHostChar c = true := by
    intro c hc
    simp only [List.append_assoc, List.mem_append] at hc
    rcases hc with hc | hc | hc
    · exact hgh c hc
    · simp only [List.mem_singleton.mp (by simpa using hc)]
      decide
    · exact hrg c hc
  have hHne : h ++ ".".data ++ root ≠ [] := by
    simp [hh]
  have hparse : parseAbsURL ("https://".data ++ ((h ++ ".".data ++ root) ++ p ++ s))
      = some ⟨h ++ ".".data ++ root, p, s⟩ := by
    unfold parseAbsURL
    rw [dropPre_refl_append]
    exact parseAfterScheme_split hHne hgH hp hpq hph hs hsh
  have hXcons : "https://".data ++ ((h ++ ".".data ++ root) ++ p ++ s)
      = 'h' :: ("ttps://".data ++ ((h ++ ".".data ++ root) ++ p ++ s)) := rfl
  have hg1 : (decide (("https://".data ++ ((h ++ ".".data ++ root) ++ p ++ s)) = [])
      || isPre "data:".data ("https://".data ++ ((h ++ ".".data ++ root) ++ p ++ s))
      || isPre "javascript:".data ("https://".data ++ ((h ++ ".".data ++ root) ++ p ++ s)))
      = false := by
    rw [hXcons, show "data:".data = 'd' :: "ata:".data from rfl,
      show "javascript:".data = 'j' :: "avascript:".data from rfl]
    rw [isPre_cons_false (by decide), isPre_cons_false (by decide)]
    simp
  have habs : isPre "https://".data ("https://".data ++ ((h ++ ".".data ++ root) ++ p ++ s))
      = true := isPre_refl_append _ _
  have hres : resolveURL ("https://".data ++ ((h ++ ".".data ++ root) ++ p ++ s)) base
      = some ⟨h ++ ".".data ++ root, p, s⟩ := by
    unfold resolveURL
    rw [habs]
    simp only [Bool.true_or, if_true]
    exact hparse
  have hsuf : isSuf (".".data ++ root) (h ++ ".".data ++ root) = true := by
    rw [List.append_assoc]
    exact isSuf_suffix_append _ _
  rw [hflat]
  unfold attributeRewriterElement
  rw [if_neg (by rw [hg1]; simp)]
  obtain ⟨-, -, hjs⟩ := attr_guard_components hg1
  rw [if_neg (by rw [hjs]; simp)]
  simp only [hres, hsuf, if_true]

/-- C4 (amended): proxification by the generic attribute rewriter is
idempotent on every value that does NOT resolve to an opaque-path URL
(resolvesNonOpaque: the resolved hostname is nonempty or the value fails to
resolve), and a value that resolves to a hostname already under .rootDomain
is left unchanged.  The claimed unrestricted idempotence is false: a value
with a non-special scheme such as mailto: resolves with an empty hostname
and an opaque pathname, and two passes mangle it differently (see the
counterexample).  The remaining hypotheses state that the base URL carries a
well-formed hostname (it is a parsed URL in the source) and that the root
domain is a well-formed hostname string. -/
theorem attributeRewriterElement_idempotent (val : Str) (base : URLRec) (root : Str)
    (hb1 : base.hostname ≠ []) (hb2 : ∀ c ∈ base.hostname, goodHostChar c = true)
    (hrg : ∀ c ∈ root, goodHostChar c = true)
    (hnop : resolvesNonOpaque val base = true) :
    attributeRewriterElement (attributeRewriterElement val base root) base root
        = attributeRewriterElement val base root
      ∧ (∀ u, resolveURL val base = some u → isSuf (".".data ++ root) u.hostname = true →
          attributeRewriterElement val base root = val) := by
  constructor
  · by_cases hg1 : (decide (val = []) || isPre "data:".data val
        || isPre "javascript:".data val) = true
    · have h1 : attributeRewriterElement val base root = val := by
        unfold attributeRewriterElement
        rw [if_pos hg1]
      rw [h1, h1]
    · obtain ⟨-, -, hjs⟩ := attr_guard_components (Bool.eq_false_iff.mpr hg1)
      rcases hres : resolveURL val base with _ | u
      · have h1 : attributeRewriterElement val base root = val := by
          unfold attributeRewriterElement
          rw [if_neg hg1, if_neg (by rw [hjs]; simp)]
          simp only [hres]
        rw [h1, h1]
      · by_cases hsuf : isSuf (".".data ++ root) u.hostname = true
        · have h1 : attributeRewriterElement val base root = val :=
            attr_skip_proxied hres hsuf
          rw [h1, h1]
        · obtain ⟨uh, up, us⟩ := u
          have h1 : attributeRewriterElement val base root
              = proxyString ⟨uh, up, us⟩ root := by
            unfold attributeRewriterElement
            rw [if_neg hg1, if_neg (by rw [hjs]; simp)]
            simp only [hres]
            rw [if_neg hsuf]
          have huhne : uh ≠ [] := by
            have h2 := hnop
            unfold resolvesNonOpaque at h2
            rw [hres] at h2
            simpa using h2
          obtain ⟨huh, hguh, hupne, hup, hupq, huph, hus, hush⟩ :=
            resolveURL_inv hb1 hb2 huhne hres
          rw [h1]
          have hshape : proxyString ⟨uh, up, us⟩ root
              = "https://".data ++ uh ++ ".".data ++ root ++ up ++ us := by
            simp [proxyString, List.append_assoc]
          rw [hshape]
          exact attr_on_proxy_shape uh up us root base huh hguh hrg hup hupq huph hus hush
  · intro u hres hsuf
    exact attr_skip_proxied hres hsuf

-- splitOnChar and trim lemmas (for the Set-Cookie rewriter)

theorem splitOnChar_ne_nil (c : Char) (s : Str) : splitOnChar c s ≠ [] := by
  cases s with
  | nil => simp [splitOnChar]
  | cons a as =>
    unfold splitOnChar
    by_cases hac : a = c
    · simp [hac]
    · rw [if_neg hac]
      rcases splitOnChar c as with _ | ⟨h, t⟩ <;> simp

theorem splitOnChar_headD (c : Char) (s : Str) :
    (splitOnChar c s).headD [] = s.takeWhile (fun a => decide (a ≠ c)) := by
  induction s with
  | nil => rfl
  | cons a as ih =>
    by_cases hac : a = c
    · subst hac
      unfold splitOnChar
      rw [if_pos rfl, takeWhile_cons_false _ (by simp)]
      rfl
    · rcases hs : splitOnChar c as with _ | ⟨h, t⟩
      · exact absurd hs (splitOnChar_ne_nil c as)
      · unfold splitOnChar
        rw [if_neg hac, hs]
        rw [hs] at ih
        simp only [List.headD_cons] at ih
        show a :: h = List.takeWhile (fun a => decide (a ≠ c)) (a :: as)
        rw [List.takeWhile_cons, if_pos (by simpa using hac), ih]

theorem mem_of_mem_splitOnChar {c : Char} {s : Str} {q : Str} {a : Char}
    (hq : q ∈ splitOnChar c s) (ha : a ∈ q) : a ∈ s := by
  induction s generalizing q with
  | nil =>
    simp only [splitOnChar, List.mem_singleton] at hq
    subst hq
    simp at ha
  | cons b bs ih =>
    unfold splitOnChar at hq
    by_cases hbc : b = c
    · rw [if_pos hbc] at hq
      rcases List.mem_cons.mp hq with rfl | hq
      · simp at ha
      · exact List.mem_cons_of_mem _ (ih hq ha)
    · rw [if_neg hbc] at hq
      rcases hs : splitOnChar c bs with _ | ⟨h, t⟩
      · exact absurd hs (splitOnChar_ne_nil c bs)
      · rw [hs] at hq
        rcases List.mem_cons.mp hq with rfl | hq
        · rcases List.mem_cons.mp ha with rfl | ha
          · simp
          · exact List.mem_cons_of_mem _ (ih (hs ▸ List.mem_cons_self h t) ha)
        · exact List.mem_cons_of_mem _ (ih (hs ▸ List.mem_cons_of_mem h hq) ha)

theorem splitOnChar_mem_no {c : Char} {s : Str} {q : Str}
    (hq : q ∈ splitOnChar c s) : c ∉ q := by
  induction s generalizing q with
  | nil =>
    simp only [splitOnChar, List.mem_singleton] at hq
    subst hq
    simp
  | cons b bs ih =>
    unfold splitOnChar at hq
    by_cases hbc : b = c
    · rw [if_pos hbc] at hq
      rcases List.mem_cons.mp hq with rfl | hq
      · simp
      · exact ih hq
    · rw [if_neg hbc] at hq
      rcases hs : splitOnChar c bs with _ | ⟨h, t⟩
      · exact absurd hs (splitOnChar_ne_nil c bs)
      · rw [hs] at hq
        rcases List.mem_cons.mp hq with rfl | hq
        · intro hmem
          rcases List.mem_cons.mp hmem with hcb | hmem
          · exact hbc hcb.symm
          · exact ih (hs ▸ List.mem_cons_self h t) hmem
        · exact ih (hs ▸ List.mem_cons_of_mem h hq)

theorem splitOnChar_cons_self (c : Char) (s : Str) :
    splitOnChar c (c :: s) = [] :: splitOnChar c s := by
  conv_lhs => unfold splitOnChar
  rw [if_pos rfl]

theorem splitOnChar_append_no {c : Char} {p : Str} (s : Str) (hp : c ∉ p) :
    splitOnChar c (p ++ s)
      = (p ++ (splitOnChar c s).headD []) :: (splitOnChar c s).tail := by
  induction p with
  | nil =>
    simp only [List.nil_append]
    rcases hs : splitOnChar c s with _ | ⟨h, t⟩
    · exact absurd hs (splitOnChar_ne_nil c s)
    · simp
  | cons a p' ih =>
    have hac : ¬(a = c) := fun h => hp (by simp [h])
    have hp' : c ∉ p' := fun hmem => hp (List.mem_cons_of_mem a hmem)
    rcases hs : splitOnChar c s with _ | ⟨h, t⟩
    · exact absurd hs (splitOnChar_ne_nil c s)
    · rw [hs] at ih
      simp only [List.headD_cons, List.tail_cons] at ih
    
      rw [List.cons_append]
      unfold splitOnChar
      rw [if_neg hac, ih hp']
      simp

theorem splitOnChar_no {c : Char} {s : Str} (h : c ∉ s) :
    splitOnChar c s = [s] := by
  have := splitOnChar_append_no ([] : Str) h
  simpa [splitOnChar] using this

theorem trim_eq_rdrop (s : Str) :
    trim s = List.rdropWhile isJsSpace (s.dropWhile isJsSpace) := rfl

theorem mem_of_mem_trim {s : Str} {a : Char} (h : a ∈ trim s) : a ∈ s := by
  rw [trim_eq_rdrop] at h
  exact mem_of_mem_dropWhile ( List.rdropWhile_prefix _ _ |>.sublist.mem h)

theorem trim_idem (s : Str) : trim (trim s) = trim s := by
  rw [trim_eq_rdrop, trim_eq_rdrop]
  have hdw : (List.rdropWhile isJsSpace (s.dropWhile isJsSpace)).dropWhile isJsSpace
      = List.rdropWhile isJsSpace (s.dropWhile isJsSpace) := by
    rcases hx : List.rdropWhile isJsSpace (s.dropWhile isJsSpace) with _ | ⟨b, t⟩
    · rfl
    · have hpre := List.rdropWhile_prefix isJsSpace (s.dropWhile isJsSpace)
      rw [hx] at hpre
      obtain ⟨t', ht'⟩ := hpre
      have hb : isJsSpace b = false :=
        @dropWhile_eq_cons isJsSpace s b (t ++ t') (by rw [← ht', List.cons_append])
      rw [List.dropWhile_cons, hb]
      simp
  rw [hdw, List.rdropWhile_idempotent]

theorem trim_cons_space (s : Str) : trim (' ' :: s) = trim s := by
  rw [trim_eq_rdrop, trim_eq_rdrop, List.dropWhile_cons]
  simp [isJsSpace]

theorem trim_eq_self_of {s : Str}
    (h1 : ∀ b t, s = b :: t → isJsSpace b = false)
    (h2 : ∀ b t, s.reverse = b :: t → isJsSpace b = false) : trim s = s := by
  have hdw : s.dropWhile isJsSpace = s := by
    rcases hx : s with _ | ⟨b, t⟩
    · rfl
    · rw [List.dropWhile_cons, h1 b t hx]
      simp
  have hrdw : s.reverse.dropWhile isJsSpace = s.reverse := by
    rcases hx : s.reverse with _ | ⟨b, t⟩
    · rfl
    · rw [List.dropWhile_cons, h2 b t hx]
      simp
  rw [trim_eq_rdrop, hdw, List.rdropWhile, hrdw, List.reverse_reverse]

theorem joinSemi_cons_of_ne_nil {l : List Str} (x : Str) (h : l ≠ []) :
    joinSemi (x :: l) = x ++ "; ".data ++ joinSemi l := by
  rcases l with _ | ⟨y, rest⟩
  · exact absurd rfl h
  · rfl

theorem splitJoin_trim (ps : List Str) (hne : ps ≠ [])
    (hfree : ∀ p ∈ ps, ';' ∉ p) :
    (splitOnChar ';' (joinSemi ps)).map trim = ps.map trim := by
  induction ps with
  | nil => exact absurd rfl hne
  | cons p rest ih =>
    rcases rest with _ | ⟨q, rest'⟩
    · rw [show joinSemi [p] = p from rfl,
        splitOnChar_no (hfree p (by simp))]
    · rw [joinSemi_cons_of_ne_nil p (by simp)]
      have hpfree : ';' ∉ p := hfree p (by simp)
      have hJ : "; ".data ++ joinSemi (q :: rest') = ';' :: (' ' :: joinSemi (q :: rest')) := rfl
      rw [List.append_assoc, hJ]
      rw [splitOnChar_append_no _ hpfree, splitOnChar_cons_self]
      rcases hsp : splitOnChar ';' (joinSemi (q :: rest')) with _ | ⟨h, t⟩
      · exact absurd hsp (splitOnChar_ne_nil _ _)
      · have hsp2 : splitOnChar ';' (' ' :: joinSemi (q :: rest')) = (' ' :: h) :: t := by
          have := @splitOnChar_append_no ';' [' '] (joinSemi (q :: rest')) (by simp)
          rw [hsp] at this
          simpa using this
        rw [hsp2]
        simp only [List.headD_cons, List.tail_cons, List.map_cons, List.append_nil]
        have ihq := ih (by simp) (fun r hr => hfree r (List.mem_cons_of_mem p hr))
        rw [hsp] at ihq
        simp only [List.map_cons] at ihq
        rw [trim_cons_space]
        rw [List.cons.injEq] at ihq ⊢
        exact ⟨rfl, by rw [ihq.1, ihq.2]⟩

theorem isSuf_append_left {p s : Str} (t : Str) (h : isSuf p s = true) :
    isSuf p (t ++ s) = true := by
  unfold isSuf at h ⊢
  rw [List.reverse_append]
  exact isPre_mono _ h

theorem joinSemi_suffix_SSL (l : List Str) (x : Str) :
    isSuf "; Secure; SameSite=Lax".data
      (joinSemi (x :: (l ++ ["Secure".data, "SameSite=Lax".data]))) = true := by
  induction l generalizing x with
  | nil =>
    have hstep : joinSemi (x :: ([] ++ ["Secure".data, "SameSite=Lax".data]))
        = x ++ "; Secure; SameSite=Lax".data := by
      rw [List.nil_append, joinSemi_cons_of_ne_nil x (by simp)]
      simp only [List.append_assoc]
      congr 1
    rw [hstep]
    exact isSuf_suffix_append _ _
  | cons y l' ih =>
    rw [List.cons_append, joinSemi_cons_of_ne_nil x (by simp), List.append_assoc]
    exact isSuf_append_left _ (isSuf_append_left _ (ih y))

theorem mem_getD_list {l : List Str} {i : Nat} {x : Char} (h : x ∈ l.getD i []) :
    ∃ q ∈ l, x ∈ q := by
  induction l generalizing i with
  | nil => simp [List.getD] at h
  | cons a l' ih =>
    cases i with
    | zero => exact ⟨a, by simp, by simpa [List.getD] using h⟩
    | succ i' =>
      obtain ⟨q, hq, hx⟩ := ih (by simpa [List.getD] using h)
      exact ⟨q, List.mem_cons_of_mem a hq, hx⟩

theorem processCookieParts_mem {rootDomain : Str} {rest : List Str} {m : Str}
    (hm : m ∈ processCookieParts rootDomain rest) :
    (isPre "secure".data (lowerStr m) = false
      ∧ isPre "samesite".data (lowerStr m) = false
      ∧ isPre "domain=".data (lowerStr m) = false
      ∧ (∃ p0 ∈ rest, m = trim p0))
    ∨ (∃ cle, m = "Domain=".data ++ cle ++ ".".data ++ rootDomain
        ∧ ∀ x ∈ cle, ∃ p0 ∈ rest, x ∈ p0) := by
  induction rest with
  | nil => simp [processCookieParts] at hm
  | cons p rest' ih =>
    have widen :
        (isPre "secure".data (lowerStr m) = false
          ∧ isPre "samesite".data (lowerStr m) = false
          ∧ isPre "domain=".data (lowerStr m) = false
          ∧ (∃ p0 ∈ rest', m = trim p0))
        ∨ (∃ cle, m = "Domain=".data ++ cle ++ ".".data ++ rootDomain
            ∧ ∀ x ∈ cle, ∃ p0 ∈ rest', x ∈ p0) →
        (isPre "secure".data (lowerStr m) = false
          ∧ isPre "samesite".data (lowerStr m) = false
          ∧ isPre "domain=".data (lowerStr m) = false
          ∧ (∃ p0 ∈ p :: rest', m = trim p0))
        ∨ (∃ cle, m = "Domain=".data ++ cle ++ ".".data ++ rootDomain
            ∧ ∀ x ∈ cle, ∃ p0 ∈ p :: rest', x ∈ p0) := by
      intro hcase
      rcases hcase with ⟨h1, h2, h3, p0, hp0, hme⟩ | ⟨cle, hme, hsub⟩
      · exact Or.inl ⟨h1, h2, h3, p0, List.mem_cons_of_mem p hp0, hme⟩
      · refine Or.inr ⟨cle, hme, ?_⟩
        intro x hx
        obtain ⟨p0, hp0, hxp⟩ := hsub x hx
        exact ⟨p0, List.mem_cons_of_mem p hp0, hxp⟩
    unfold processCookieParts at hm
    by_cases hg : (isPre "secure".data (lowerStr (trim p))
        || isPre "samesite".data (lowerStr (trim p))) = true
    · rw [if_pos hg] at hm
      exact widen (ih hm)
    · rw [if_neg hg] at hm
      have hgf := Bool.eq_false_iff.mpr hg
      simp only [Bool.or_eq_false_iff] at hgf
      by_cases hd : isPre "domain=".data (lowerStr (trim p)) = true
      · rw [if_pos hd] at hm
        rcases List.mem_cons.mp hm with rfl | hm
        · refine Or.inr ⟨_, rfl, ?_⟩
          intro x hx
          have hxod : x ∈ trim ((splitOnChar '=' (trim p)).getD 1 []) := by
            by_cases hdot : isPre ".".data (trim ((splitOnChar '=' (trim p)).getD 1 [])) = true
            · rw [if_pos hdot] at hx
              exact (List.drop_sublist 1 _).mem hx
            · rw [if_neg hdot] at hx
              exact hx
          have hx2 := mem_of_mem_trim hxod
          obtain ⟨q, hq, hxq⟩ := mem_getD_list hx2
          exact ⟨p, List.mem_cons_self p rest',
            mem_of_mem_trim (mem_of_mem_splitOnChar hq hxq)⟩
        · exact widen (ih hm)
      · rw [if_neg hd] at hm
        rcases List.mem_cons.mp hm with rfl | hm
        · exact Or.inl ⟨hgf.1, hgf.2, Bool.eq_false_iff.mpr hd,
            p, List.mem_cons_self p rest', rfl⟩
        · exact widen (ih hm)

/-- C2 (amended): every rewritten Set-Cookie value preserves the (trimmed)
leading name=value token, ends with the appended attributes Secure and
SameSite=Lax, carries no other Secure or SameSite attribute, and every
Domain attribute in the output is of the form Domain=(origin).(rootDomain),
hence ends with .rootDomain; the value of a Domain attribute is NOT the
bare root domain, no Domain attribute is added when the input had none,
and there is no special case for __Host- cookie names (see the
counterexample). -/
theorem rewriteSetCookieHeader_hardening (hv root : Str)
    (hroot : ∀ c ∈ root, c ≠ ';' ∧ isJsSpace c = false) :
    (rewriteSetCookieHeader hv root).takeWhile (fun a => decide (a ≠ ';'))
        = trim (hv.takeWhile (fun a => decide (a ≠ ';')))
      ∧ isSuf "; Secure; SameSite=Lax".data (rewriteSetCookieHeader hv root) = true
      ∧ ∀ q ∈ ((splitOnChar ';' (rewriteSetCookieHeader hv root)).map trim).tail,
          (isPre "domain=".data (lowerStr q) = true → isSuf (".".data ++ root) q = true)
          ∧ (isPre "secure".data (lowerStr q) = true → q = "Secure".data)
          ∧ (isPre "samesite".data (lowerStr q) = true → q = "SameSite=Lax".data) := by
  have hout : rewriteSetCookieHeader hv root
      = joinSemi (trim ((splitOnChar ';' hv).headD [])
          :: (processCookieParts root (splitOnChar ';' hv).tail
            ++ ["Secure".data, "SameSite=Lax".data])) := rfl
  have hp0 : (splitOnChar ';' hv).headD [] = hv.takeWhile (fun a => decide (a ≠ ';')) :=
    splitOnChar_headD ';' hv
  have hp0free : ∀ a ∈ trim ((splitOnChar ';' hv).headD []), a ≠ ';' := by
    intro a ha
    have hmem : a ∈ hv.takeWhile (fun x => decide (x ≠ ';')) :=
      hp0 ▸ mem_of_mem_trim ha
    have := List.mem_takeWhile_imp hmem
    simpa using this
  have hmidfacts : ∀ m ∈ processCookieParts root (splitOnChar ';' hv).tail,
      ';' ∉ m ∧ trim m = m := by
    intro m hm
    rcases processCookieParts_mem hm with ⟨h1, h2, h3, p0, hp0m, hme⟩ | ⟨cle, hme, hsub⟩
    · subst hme
      constructor
      · intro hmem
        exact splitOnChar_mem_no (List.mem_of_mem_tail hp0m) (mem_of_mem_trim hmem)
      · exact trim_idem p0
    · have hclefree : ∀ x ∈ cle, x ≠ ';' := by
        intro x hx hxeq
        obtain ⟨q0, hq0, hxq⟩ := hsub x hx
        exact splitOnChar_mem_no (List.mem_of_mem_tail hq0) (hxeq ▸ hxq)
      constructor
      · subst hme
        intro hmem
        simp only [List.append_assoc, List.mem_append] at hmem
        rcases hmem with hmem | hmem | hmem | hmem
        · simp at hmem
        · exact hclefree ';' hmem rfl
        · simp at hmem
        · exact absurd rfl (hroot ';' hmem).1
      · subst hme
        apply trim_eq_self_of
        · intro b t hbt
          have hshape : "Domain=".data ++ cle ++ ".".data ++ root
              = 'D' :: ("omain=".data ++ (cle ++ (".".data ++ root))) := by
            simp only [List.append_assoc]
            rfl
          rw [hshape] at hbt
          rw [List.cons.injEq] at hbt
          rw [← hbt.1]
          decide
        · intro b t hbt
          rw [List.reverse_append] at hbt
          by_cases hr : root = []
          · subst hr
            simp only [List.reverse_nil, List.nil_append] at hbt
            rw [List.reverse_append] at hbt
            have hdot : ('.' :: ("Domain=".data ++ cle).reverse) = b :: t := by
              simpa using hbt
            rw [List.cons.injEq] at hdot
            rw [← hdot.1]
            decide
          · rcases hrr : root.reverse with _ | ⟨c, cs⟩
            · exact absurd (by simpa using congrArg List.reverse hrr) hr
            · rw [hrr, List.cons_append] at hbt
              rw [List.cons.injEq] at hbt
              have hc : c ∈ root := by
                rw [← List.mem_reverse, hrr]
                simp
              rw [← hbt.1]
              exact (hroot c hc).2
  refine ⟨?_, ?_, ?_⟩
  · rw [hout, joinSemi_cons_of_ne_nil _ (by simp)]
    rw [List.append_assoc]
    rw [show "; ".data ++ joinSemi (processCookieParts root (splitOnChar ';' hv).tail
        ++ ["Secure".data, "SameSite=Lax".data])
      = ';' :: (' ' :: joinSemi (processCookieParts root (splitOnChar ';' hv).tail
        ++ ["Secure".data, "SameSite=Lax".data])) from rfl]
    rw [takeWhile_append_all _ (fun a ha => by simpa using hp0free a ha)]
    rw [takeWhile_cons_false _ (by simp)]
    rw [List.append_nil, hp0]
  · rw [hout]
    exact joinSemi_suffix_SSL _ _
  · intro q hq
    rw [hout] at hq
    rw [splitJoin_trim _ (by simp) ?hfree] at hq
    case hfree =>
      intro part hpart
      rcases List.mem_cons.mp hpart with rfl | hpart
      · intro hmem
        exact hp0free ';' hmem rfl
      · rcases List.mem_append.mp hpart with hpart | hpart
        · exact (hmidfacts part hpart).1
        · rcases List.mem_cons.mp hpart with rfl | hpart
          · decide
          · rcases List.mem_cons.mp hpart with rfl | hpart
            · decide
            · simp at hpart
    simp only [List.map_cons, List.tail_cons, List.map_append] at hq
    rcases List.mem_append.mp hq with hq | hq
    · obtain ⟨m, hm, rfl⟩ := List.mem_map.mp hq
      have hfix : trim m = m := (hmidfacts m hm).2
      rw [hfix]
      rcases processCookieParts_mem hm with ⟨h1, h2, h3, p0, hp0m, hme⟩ | ⟨cle, hme, hsub⟩
      · refine ⟨?_, ?_, ?_⟩
        · intro hcon
          rw [hcon] at h3
          exact absurd h3 (by simp)
        · intro hcon
          rw [hcon] at h1
          exact absurd h1 (by simp)
        · intro hcon
          rw [hcon] at h2
          exact absurd h2 (by simp)
      · have hlow : lowerStr m = 'd' :: lowerStr ("omain=".data ++ (cle ++ (".".data ++ root))) := by
          rw [hme]
          have hshape : "Domain=".data ++ cle ++ ".".data ++ root
              = 'D' :: ("omain=".data ++ (cle ++ (".".data ++ root))) := by
            simp only [List.append_assoc]
            rfl
          rw [hshape]
          rfl
        refine ⟨?_, ?_, ?_⟩
        · intro _
          rw [hme]
          rw [show "Domain=".data ++ cle ++ ".".data ++ root
              = ("Domain=".data ++ cle) ++ (".".data ++ root) by simp [List.append_assoc]]
          exact isSuf_suffix_append _ _
        · intro hcon
          rw [hlow] at hcon
          rw [show "secure".data = 's' :: "ecure".data from rfl] at hcon
          rw [isPre_cons_false (by decide)] at hcon
          exact absurd hcon (by simp)
        · intro hcon
          rw [hlow] at hcon
          rw [show "samesite".data = 's' :: "amesite".data from rfl] at hcon
          rw [isPre_cons_false (by decide)] at hcon
          exact absurd hcon (by simp)
    · simp only [List.map_cons, List.map_nil] at hq
      rcases List.mem_cons.mp hq with rfl | hq
      · exact ⟨fun hcon => absurd hcon (by decide), fun hcon => by decide,
          fun hcon => absurd hcon (by decide)⟩
      · rcases List.mem_cons.mp hq with rfl | hq
        · exact ⟨fun hcon => absurd hcon (by decide), fun hcon => absurd hcon (by decide),
            fun hcon => by decide⟩
        · simp at hq

theorem rewriteSetCookieHeader_hardening_witness :
    isSuf "; Secure; SameSite=Lax".data
        (rewriteSetCookieHeader "sid=abc; Domain=.x.com; Path=/".data "p.example".data)
      = true :=
  (rewriteSetCookieHeader_hardening "sid=abc; Domain=.x.com; Path=/".data
    "p.example".data (by decide)).2.1

theorem getTargetURL_roundtrip_witness :
    getTargetURL ("https://".data ++ "my-site.com".data ++ ".".data ++ "p.example".data
        ++ "/path/x".data ++ "?a=1".data) cfgP
      = some ⟨"my-site.com".data, "/path/x".data, "?a=1".data⟩ :=
  getTargetURL_roundtrip "my-site.com".data "p.example".data "/path/x".data "?a=1".data
    cfgP rfl (by decide) (by decide) (by decide) (by decide) (by decide) (by decide)
    (by decide) (by decide) (by decide)

theorem attributeRewriterElement_idempotent_witness :
    resolvesNonOpaque "https://cdn.ex.com/a.png".data ⟨"site.com".data, "/".data, []⟩ = true
    ∧ attributeRewriterElement
        (attributeRewriterElement "https://cdn.ex.com/a.png".data
          ⟨"site.com".data, "/".data, []⟩ "p.example".data)
        ⟨"site.com".data, "/".data, []⟩ "p.example".data
      = attributeRewriterElement "https://cdn.ex.com/a.png".data
          ⟨"site.com".data, "/".data, []⟩ "p.example".data :=
  ⟨by decide,
    (attributeRewriterElement_idempotent "https://cdn.ex.com/a.png".data
      ⟨"site.com".data, "/".data, []⟩ "p.example".data (by decide) (by decide) (by decide)
      (by decide)).1⟩

-- scanRepl lemmas (for the XML rewriter)

theorem scanReplF_eq_self {m : Str → Option (Str × Nat)} :
    ∀ (fuel : Nat) (s : Str), (∀ t, t <:+ s → t ≠ [] → m t = none) →
      scanReplF m fuel s = s := by
  intro fuel
  induction fuel with
  | zero =>
    intro s _
    cases s <;> rfl
  | succ fuel' ih =>
    intro s hnone
    cases s with
    | nil => rfl
    | cons c rest =>
      have hm : m (c :: rest) = none :=
        hnone (c :: rest) (List.suffix_refl _) (by simp)
      show scanReplF m (fuel' + 1) (c :: rest) = c :: rest
      unfold scanReplF
      rw [hm]
      rw [ih rest (fun t ht htne => hnone t (ht.trans (List.suffix_cons c rest)) htne)]

theorem scanRepl_eq_self {m : Str → Option (Str × Nat)} {s : Str}
    (hnone : ∀ t, t <:+ s → t ≠ [] → m t = none) : scanRepl m s = s :=
  scanReplF_eq_self _ s hnone

theorem scanRepl_of_match {m : Str → Option (Str × Nat)} {c : Char} {rest repl : Str}
    {extra : Nat} (hm : m (c :: rest) = some (repl, extra)) (hlen : rest.length = extra) :
    scanRepl m (c :: rest) = repl := by
  show scanReplF m (c :: rest).length (c :: rest) = repl
  rw [List.length_cons]
  unfold scanReplF
  rw [hm]
  show repl ++ scanReplF m rest.length (rest.drop extra) = repl
  rw [← hlen, List.drop_length]
  have hz : scanReplF m rest.length [] = [] := by
    cases rest.length <;> rfl
  rw [hz, List.append_nil]

theorem suffix_append_cases {t xs ys : Str} (h : t <:+ xs ++ ys) :
    t <:+ ys ∨ ∃ d, d <:+ xs ∧ d ≠ [] ∧ t = d ++ ys := by
  induction xs with
  | nil => exact Or.inl (by simpa using h)
  | cons a xs' ih =>
    rw [List.cons_append] at h
    rcases List.suffix_cons_iff.mp h with rfl | h
    · exact Or.inr ⟨a :: xs', List.suffix_refl _, by simp, by rw [List.cons_append]⟩
    · rcases ih h with h | ⟨d, hd, hdne, rfl⟩
      · exact Or.inl h
      · exact Or.inr ⟨d, hd.trans (List.suffix_cons a xs'), hdne, rfl⟩

theorem matchTagText_none_of_dropPre {opn cls : Str} {f : Str → Str} {s : Str}
    (h : dropPre opn s = none) : matchTagText opn cls f s = none := by
  unfold matchTagText
  rw [h]

theorem matchTagText_none_of_ne {opn' cls : Str} {f : Str → Str} {x : Char} {r : Str}
    (hx : x ≠ '<') : matchTagText ('<' :: opn') cls f (x :: r) = none := by
  apply matchTagText_none_of_dropPre
  unfold dropPre
  rw [if_neg (fun hh => hx hh.symm)]

theorem matchTagText_none_on_locdoc {opn' cls : Str} {f : Str → Str} {mid : Str}
    (hmid : ∀ c ∈ mid, c ≠ '<')
    (hpre1 : ∀ X : Str, dropPre ('<' :: opn') ("<loc>".data ++ X) = none)
    (hpre2 : dropPre ('<' :: opn') "</loc>".data = none) :
    ∀ t, t <:+ "<loc>".data ++ (mid ++ "</loc>".data) → t ≠ [] →
      matchTagText ('<' :: opn') cls f t = none := by
  intro t ht htne
  rcases suffix_append_cases ht with ht | ⟨d, hd, hdne, rfl⟩
  · rcases suffix_append_cases ht with ht | ⟨d, hd, hdne, rfl⟩
    · have hmem : t ∈ ("</loc>".data).tails := (List.mem_tails _ _).mpr ht
      fin_cases hmem
      · exact matchTagText_none_of_dropPre hpre2
      · exact matchTagText_none_of_ne (by decide)
      · exact matchTagText_none_of_ne (by decide)
      · exact matchTagText_none_of_ne (by decide)
      · exact matchTagText_none_of_ne (by decide)
      · exact matchTagText_none_of_ne (by decide)
      · exact absurd rfl htne
    · rcases hdd : d with _ | ⟨x, d'⟩
      · exact absurd hdd hdne
      · subst hdd
        rw [List.cons_append]
        exact matchTagText_none_of_ne (hmid x (hd.subset (by simp)))
  · have hmem : d ∈ ("<loc>".data).tails := (List.mem_tails _ _).mpr hd
    fin_cases hmem
    · exact matchTagText_none_of_dropPre (hpre1 _)
    · exact matchTagText_none_of_ne (by decide)
    · exact matchTagText_none_of_ne (by decide)
    · exact matchTagText_none_of_ne (by decide)
    · exact matchTagText_none_of_ne (by decide)
    · exact absurd rfl hdne

theorem parseAfterScheme_not_lt {rest : Str} {uh up us : Str}
    (h : parseAfterScheme rest = some ⟨uh, up, us⟩)
    (hr : ∀ c ∈ rest, c ≠ '<') :
    (∀ c ∈ uh, c ≠ '<') ∧ (∀ c ∈ up, c ≠ '<') ∧ (∀ c ∈ us, c ≠ '<') := by
  simp only [parseAfterScheme, drop_takeWhile_length] at h
  set A := rest.takeWhile notDelim with hAdef
  set HP := (A.reverse.takeWhile (fun c => c ≠ '@')).reverse with hHPdef
  set H := HP.takeWhile (fun c => c ≠ ':') with hHdef
  by_cases h1 : H = []
  · rw [if_pos h1] at h
    exact absurd h (by simp)
  rw [if_neg h1] at h
  by_cases h2 : (!portOk (HP.dropWhile (fun c => c ≠ ':'))) = true
  · rw [if_pos h2] at h
    exact absurd h (by simp)
  rw [if_neg h2] at h
  rw [Option.some_inj, URLRec.mk.injEq] at h
  obtain ⟨hA, hP, hS⟩ := h
  refine ⟨?_, ?_, ?_⟩
  · rw [← hA]
    intro c hc
    rw [hHdef] at hc
    have hcHP : c ∈ HP := mem_of_mem_takeWhile hc
    rw [hHPdef] at hcHP
    have hcA : c ∈ A := List.mem_reverse.mp (mem_of_mem_takeWhile (List.mem_reverse.mp hcHP))
    rw [hAdef] at hcA
    exact hr c (mem_of_mem_takeWhile hcA)
  · rw [← hP]
    by_cases hpn : ((rest.dropWhile notDelim).takeWhile (fun c => c ≠ '#')).takeWhile
        (fun c => c ≠ '?') = []
    · rw [if_pos hpn]
      intro c hc
      simp only [List.mem_singleton] at hc
      subst hc
      decide
    · rw [if_neg hpn]
      intro c hc
      exact hr c (mem_of_mem_dropWhile
        (mem_of_mem_takeWhile (mem_of_mem_takeWhile hc)))
  · rw [← hS]
    intro c hc
    exact hr c (mem_of_mem_dropWhile
      (mem_of_mem_takeWhile (mem_of_mem_dropWhile hc)))

theorem parseAbsURL_not_lt {s : Str} {uh up us : Str}
    (h : parseAbsURL s = some ⟨uh, up, us⟩)
    (hs : ∀ c ∈ s, c ≠ '<') :
    (∀ c ∈ uh, c ≠ '<') ∧ (∀ c ∈ up, c ≠ '<') ∧ (∀ c ∈ us, c ≠ '<') := by
  unfold parseAbsURL at h
  rcases hd : dropPre "https://".data s with _ | rest
  · rw [hd] at h
    rcases hd2 : dropPre "http://".data s with _ | rest2
    · rw [hd2] at h
      exact absurd h (by simp)
    · rw [hd2] at h
      have hsplit := dropPre_eq_some.mp hd2
      refine parseAfterScheme_not_lt h ?_
      intro c hc
      exact hs c (by rw [hsplit]; exact List.mem_append_right _ hc)
  · rw [hd] at h
    have hsplit := dropPre_eq_some.mp hd
    refine parseAfterScheme_not_lt h ?_
    intro c hc
    exact hs c (by rw [hsplit]; exact List.mem_append_right _ hc)

theorem schemeSplit_eq {val sch rest : Str} (h : schemeSplit val = some (sch, rest)) :
    val.dropWhile isSchemeChar = ':' :: rest := by
  unfold schemeSplit at h
  split at h
  · exact absurd h (by simp)
  · split at h
    · simp only [drop_takeWhile_length] at h
      split at h
      · rename_i heq
        rw [Option.some_inj, Prod.mk.injEq] at h
        rw [heq, h.2]
      · exact absurd h (by simp)
    · exact absurd h (by simp)

theorem schemeSplit_rest_mem {val sch rest : Str}
    (h : schemeSplit val = some (sch, rest)) : ∀ c ∈ rest, c ∈ val := by
  intro c hc
  have h2 := schemeSplit_eq h
  have h3 : c ∈ val.dropWhile isSchemeChar := by
    rw [h2]
    exact List.mem_cons_of_mem ':' hc
  exact mem_of_mem_dropWhile h3

theorem resolveURL_not_lt {val : Str} {base : URLRec} {uh up us : Str}
    (h : resolveURL val base = some ⟨uh, up, us⟩)
    (hval : ∀ c ∈ val, c ≠ '<') (hbase : ∀ c ∈ base.hostname, c ≠ '<') :
    (∀ c ∈ uh, c ≠ '<') ∧ (∀ c ∈ up, c ≠ '<') ∧ (∀ c ∈ us, c ≠ '<') := by
  unfold resolveURL at h
  by_cases habs : (isPre "https://".data val || isPre "http://".data val) = true
  · rw [if_pos habs] at h
    exact parseAbsURL_not_lt h hval
  rw [if_neg habs] at h
  by_cases hpro : isPre "//".data val = true
  · rw [if_pos hpro] at h
    refine parseAbsURL_not_lt h ?_
    intro c hc
    rcases List.mem_append.mp hc with hc | hc
    · rcases List.mem_cons.mp hc with rfl | hc
      · decide
      · rcases List.mem_cons.mp hc with rfl | hc
        · decide
        · rcases List.mem_cons.mp hc with rfl | hc
          · decide
          · rcases List.mem_cons.mp hc with rfl | hc
            · decide
            · rcases List.mem_cons.mp hc with rfl | hc
              · decide
              · rcases List.mem_cons.mp hc with rfl | hc
                · decide
                · simp at hc
    · exact hval c hc
  rw [if_neg hpro] at h
  by_cases hsl : isPre "/".data val = true
  case neg =>
    rw [if_neg hsl] at h
    split at h
    · rename_i sch rest2 hss
      split at h
      · exact absurd h (by simp)
      · rw [Option.some_inj, URLRec.mk.injEq] at h
        obtain ⟨hA, hP, hS⟩ := h
        have hmem : ∀ c ∈ rest2, c ∈ val := schemeSplit_rest_mem hss
        refine ⟨?_, ?_, ?_⟩
        · rw [← hA]
          intro c hc
          simp at hc
        · rw [← hP]
          intro c hc
          exact hval c (hmem c (mem_of_mem_takeWhile (mem_of_mem_takeWhile hc)))
        · rw [← hS]
          intro c hc
          rw [drop_takeWhile_length] at hc
          exact hval c (hmem c (mem_of_mem_takeWhile (mem_of_mem_dropWhile hc)))
    · exact absurd h (by simp)
  rw [if_pos hsl] at h
  rw [Option.some_inj, URLRec.mk.injEq] at h
  obtain ⟨hA, hP, hS⟩ := h
  refine ⟨?_, ?_, ?_⟩
  · rw [← hA]
    exact hbase
  · rw [← hP]
    intro c hc
    exact hval c (mem_of_mem_takeWhile (mem_of_mem_takeWhile hc))
  · rw [← hS]
    intro c hc
    rw [drop_takeWhile_length] at hc
    exact hval c (mem_of_mem_takeWhile (mem_of_mem_dropWhile hc))

theorem proxiedURL_not_lt {url root : Str} {base : URLRec}
    (hurl : ∀ c ∈ url, c ≠ '<') (hroot : ∀ c ∈ root, c ≠ '<')
    (hbase : ∀ c ∈ base.hostname, c ≠ '<') :
    ∀ c ∈ proxiedURL url base root, c ≠ '<' := by
  unfold proxiedURL
  rcases hres : resolveURL url base with _ | u
  · exact hurl
  · obtain ⟨uh, up, us⟩ := u
    obtain ⟨h1, h2, h3⟩ := resolveURL_not_lt hres hurl hbase
    intro c hc
    unfold proxyString at hc
    simp only [List.append_assoc, List.mem_append] at hc
    rcases hc with hc | hc | hc | hc | hc | hc
    · rcases List.mem_cons.mp hc with rfl | hc
      · decide
      · rcases List.mem_cons.mp hc with rfl | hc
        · decide
        · rcases List.mem_cons.mp hc with rfl | hc
          · decide
          · rcases List.mem_cons.mp hc with rfl | hc
            · decide
            · rcases List.mem_cons.mp hc with rfl | hc
              · decide
              · rcases List.mem_cons.mp hc with rfl | hc
                · decide
                · rcases List.mem_cons.mp hc with rfl | hc
                  · decide
                  · rcases List.mem_cons.mp hc with rfl | hc
                    · decide
                    · simp at hc
    · exact h1 c hc
    · simp only [List.mem_singleton] at hc
      subst hc
      decide
    · exact hroot c hc
    · exact h2 c hc
    · exact h3 c hc

theorem matchTagText_loc (f : Str → Str) {url : Str} (hne : url ≠ [])
    (hurl : ∀ c ∈ url, c ≠ '<') :
    matchTagText "<loc>".data "</loc>".data f ("<loc>".data ++ (url ++ "</loc>".data))
      = some ("<loc>".data ++ f url ++ "</loc>".data, url.length + 10) := by
  have htw : (url ++ "</loc>".data).takeWhile (fun c => c ≠ '<') = url := by
    rw [takeWhile_append_all ("</loc>".data) (fun a ha => by
      simpa using hurl a ha)]
    rw [show ("</loc>".data) = '<' :: "/loc>".data from rfl]
    rw [takeWhile_cons_false _ (by decide)]
    simp
  unfold matchTagText
  rw [dropPre_refl_append]
  simp only [htw]
  rw [if_neg hne, List.drop_left]
  have hdp : dropPre ['<', '/', 'l', 'o', 'c', '>'] ['<', '/', 'l', 'o', 'c', '>'] = some [] := rfl
  rw [hdp]
  show some ((['<', 'l', 'o', 'c', '>'] : Str) ++ f url ++ ['<', '/', 'l', 'o', 'c', '>'],
      (['<', 'l', 'o', 'c', '>'] : Str).length + url.length
        + (['<', '/', 'l', 'o', 'c', '>'] : Str).length - 1)
    = some ((['<', 'l', 'o', 'c', '>'] : Str) ++ f url ++ ['<', '/', 'l', 'o', 'c', '>'],
      url.length + 10)
  have harith : (['<', 'l', 'o', 'c', '>'] : Str).length + url.length
      + (['<', '/', 'l', 'o', 'c', '>'] : Str).length - 1 = url.length + 10 := by
    simp only [List.length_cons, List.length_nil]
    omega
  rw [harith]

/-- C5 (amended): the wired rewriteXML (v1.0.0) proxifies matched URLs
UNCONDITIONALLY — its proxiedURL helper has no already-proxied check — so a
`<loc>` entry is always replaced by its proxified form, even when its hostname
already ends with `.{rootDomain}` (in which case the URL is double-proxied, as
the separate counterexample shows).  The spec's claimed skip exists only in
the unwired v2.1.0 variant of the rewriter. -/
theorem rewriteXML_unconditional (url root : Str) (base : URLRec)
    (hne : url ≠ []) (hurl : ∀ c ∈ url, c ≠ '<')
    (hroot : ∀ c ∈ root, c ≠ '<') (hbase : ∀ c ∈ base.hostname, c ≠ '<') :
    rewriteXML ("<loc>".data ++ url ++ "</loc>".data) base root
      = "<loc>".data ++ proxiedURL url base root ++ "</loc>".data := by
  have hproxy : ∀ c ∈ proxiedURL url base root, c ≠ '<' :=
    proxiedURL_not_lt hurl hroot hbase
  have h1 : scanRepl
      (matchTagText "<link>".data "</link>".data (fun u => proxiedURL u base root))
      ("<loc>".data ++ url ++ "</loc>".data)
      = "<loc>".data ++ url ++ "</loc>".data := by
    apply scanRepl_eq_self
    exact matchTagText_none_on_locdoc hurl (fun X => rfl) rfl
  have h2 : scanRepl
      (matchTagText "<loc>".data "</loc>".data (fun u => proxiedURL u base root))
      ("<loc>".data ++ url ++ "</loc>".data)
      = "<loc>".data ++ proxiedURL url base root ++ "</loc>".data := by
    have hm := matchTagText_loc (fun u => proxiedURL u base root) hne hurl
    have hshape : "<loc>".data ++ url ++ "</loc>".data
        = '<' :: ("loc>".data ++ url ++ "</loc>".data) := rfl
    rw [hshape]
    refine scanRepl_of_match hm ?_
    show ("loc>".data ++ url ++ "</loc>".data).length = url.length + 10
    simp only [List.length_append]
    rw [show ("loc>".data.length) = 4 from rfl, show ("</loc>".data.length) = 6 from rfl]
    omega
  have h3 : scanRepl
      (matchTagText "<image:loc>".data "</image:loc>".data
        (fun u => proxiedURL u base root))
      ("<loc>".data ++ proxiedURL url base root ++ "</loc>".data)
      = "<loc>".data ++ proxiedURL url base root ++ "</loc>".data := by
    apply scanRepl_eq_self
    exact matchTagText_none_on_locdoc hproxy (fun X => rfl) rfl
  simp only [rewriteXML]
  rw [h1, h2, h3]

theorem rewriteXML_unconditional_witness :
    ("https://cdn.example/f.png".data ≠ ([] : Str)
      ∧ (∀ c ∈ "https://cdn.example/f.png".data, c ≠ '<')
      ∧ (∀ c ∈ "p.example".data, c ≠ '<')
      ∧ (∀ c ∈ ("h.p.example".data : Str), c ≠ '<'))
    ∧ rewriteXML ("<loc>".data ++ "https://cdn.example/f.png".data ++ "</loc>".data)
        ⟨"h.p.example".data, "/".data, []⟩ "p.example".data
      = "<loc>".data
        ++ proxiedURL "https://cdn.example/f.png".data
            ⟨"h.p.example".data, "/".data, []⟩ "p.example".data
        ++ "</loc>".data :=
  ⟨⟨by decide, by decide, by decide, by decide⟩,
    rewriteXML_unconditional "https://cdn.example/f.png".data "p.example".data
      ⟨"h.p.example".data, "/".data, []⟩ (by decide) (by decide) (by decide) (by decide)⟩

-- JSON walker lemmas (C6)

theorem domSet_updateField (h : JHeap) (id : Nat) (k : Str) (v : Str) :
    domSet (updateField h id k v) = domSet h := by
  unfold domSet updateField
  rw [List.map_map]
  congr 1
  congr 1
  funext e
  by_cases he : e.1 = id <;> simp [he]

theorem lookup_mem_dom {heap : JHeap} {id : Nat} {fields : JObj}
    (h : lookupHeap heap id = some fields) : id ∈ domSet heap := by
  unfold lookupHeap at h
  rcases hf : heap.find? (fun e => e.1 = id) with _ | e
  · rw [hf] at h
    exact absurd h (by simp)
  · have he := List.find?_some hf
    have hmem := List.mem_of_find?_eq_some hf
    exact List.mem_toFinset.mpr (List.mem_map.mpr ⟨e, hmem, by simpa using he⟩)

theorem walkJson_eq (fuel : Nat) (heap : JHeap) (seen : Finset Nat) (id : Nat)
    (base : URLRec) (root : Str) :
    walkJson (fuel + 1) heap seen id base root
      = match lookupHeap heap id with
        | none => some (heap, seen)
        | some fields =>
          if id ∈ seen then some (heap, seen)
          else fields.foldl (walkStep fuel id base root) (some (heap, insert id seen)) :=
  rfl

theorem walkJson_succ_none {fuel : Nat} {heap : JHeap} {seen : Finset Nat} {id : Nat}
    {base : URLRec} {root : Str} (hl : lookupHeap heap id = none) :
    walkJson (fuel + 1) heap seen id base root = some (heap, seen) := by
  rw [walkJson_eq, hl]

theorem walkJson_succ_go {fuel : Nat} {heap : JHeap} {seen : Finset Nat} {id : Nat}
    {base : URLRec} {root : Str} {fields : JObj}
    (hl : lookupHeap heap id = some fields) (hid : id ∉ seen) :
    walkJson (fuel + 1) heap seen id base root
      = fields.foldl (walkStep fuel id base root) (some (heap, insert id seen)) := by
  rw [walkJson_eq, hl]
  show (if id ∈ seen then some (heap, seen)
    else fields.foldl (walkStep fuel id base root) (some (heap, insert id seen))) = _
  rw [if_neg hid]

theorem walkJson_halts (base : URLRec) (root : Str) :
    ∀ (fuel : Nat) (heap : JHeap) (seen : Finset Nat) (id : Nat),
    seen ⊆ domSet heap → (domSet heap).card - seen.card < fuel →
    ∃ h2 s2, walkJson fuel heap seen id base root = some (h2, s2)
      ∧ domSet h2 = domSet heap ∧ seen ⊆ s2 ∧ s2 ⊆ domSet heap := by
  intro fuel
  induction fuel with
  | zero =>
    intro heap seen id hsub hlt
    exact absurd hlt (Nat.not_lt_zero _)
  | succ fuel' ih =>
    intro heap seen id hsub hlt
    rcases hl : lookupHeap heap id with _ | fields
    · exact ⟨heap, seen, walkJson_succ_none hl, rfl, Finset.Subset.refl _, hsub⟩
    · by_cases hid : id ∈ seen
      · refine ⟨heap, seen, ?_, rfl, Finset.Subset.refl _, hsub⟩
        rw [walkJson_eq, hl]
        show (if id ∈ seen then some (heap, seen)
          else fields.foldl (walkStep fuel' id base root)
            (some (heap, insert id seen))) = _
        rw [if_pos hid]
      · have hidD : id ∈ domSet heap := lookup_mem_dom hl
        have hcardlt : seen.card < (domSet heap).card :=
          Finset.card_lt_card ((Finset.ssubset_iff_of_subset hsub).mpr ⟨id, hidD, hid⟩)
        have hins : insert id seen ⊆ domSet heap :=
          Finset.insert_subset_iff.mpr ⟨hidD, hsub⟩
        have hinscard : (insert id seen).card = seen.card + 1 :=
          Finset.card_insert_of_not_mem hid
        have hfold : ∀ (fs : JObj) (h : JHeap) (s : Finset Nat),
            domSet h = domSet heap → s ⊆ domSet heap → seen.card + 1 ≤ s.card →
            ∃ h2 s2, fs.foldl (walkStep fuel' id base root) (some (h, s)) = some (h2, s2)
              ∧ domSet h2 = domSet heap ∧ s ⊆ s2 ∧ s2 ⊆ domSet heap := by
          intro fs
          induction fs with
          | nil =>
            intro h s hd hsD hcard
            exact ⟨h, s, rfl, hd, Finset.Subset.refl _, hsD⟩
          | cons a fs ihf =>
            intro h s hd hsD hcard
            rw [List.foldl_cons]
            rcases a with ⟨k, w⟩
            rcases w with v | child | _
            · rw [show walkStep fuel' id base root (some (h, s)) (k, JVal.str v)
                = some (updateField h id k (rewriteJsonStr v base root), s) from rfl]
              refine ihf _ _ ?_ hsD hcard
              rw [domSet_updateField, hd]
            · have hsDh : s ⊆ domSet h := by
                rw [hd]
                exact hsD
              have hfuel : (domSet h).card - s.card < fuel' := by
                rw [hd]
                omega
              obtain ⟨h2, s2, hw, hd2, hss2, hs2D⟩ := ih h s child hsDh hfuel
              rw [show walkStep fuel' id base root (some (h, s)) (k, JVal.ref child)
                = walkJson fuel' h s child base root from rfl, hw]
              have hs2D' : s2 ⊆ domSet heap := by
                rw [← hd]
                exact hs2D
              obtain ⟨h3, s3, hfold3, hd3, hss3, hs3D⟩ := ihf h2 s2
                (by rw [hd2, hd]) hs2D' (hcard.trans (Finset.card_le_card hss2))
              exact ⟨h3, s3, hfold3, hd3, hss2.trans hss3, hs3D⟩
            · rw [show walkStep fuel' id base root (some (h, s)) (k, JVal.prim)
                = some (h, s) from rfl]
              exact ihf h s hd hsD hcard
        obtain ⟨h2, s2, hfe, hd2, hss, hs2D⟩ := hfold fields heap (insert id seen) rfl hins
          (by rw [hinscard])
        refine ⟨h2, s2, ?_, hd2, (Finset.subset_insert id seen).trans hss, hs2D⟩
        rw [walkJson_succ_go hl hid]
        exact hfe

/-- C6: the JSON tree walker halts on every object graph, cyclic graphs
included: rewriteUrlsInJson (walkJson with fuel card(dom)+1, starting from an
empty visited set) always returns some result, because each recursive visit
of an unvisited object strictly grows the visited set inside the fixed heap
domain, so the fuel is never exhausted. -/
theorem rewriteUrlsInJson_halts (heap : JHeap) (id : Nat) (base : URLRec) (root : Str) :
    (rewriteUrlsInJson heap id base root).isSome = true := by
  obtain ⟨h2, s2, he, -, -, -⟩ := walkJson_halts base root ((domSet heap).card + 1) heap ∅ id
    (Finset.empty_subset _) (by simp only [Finset.card_empty]; omega)
  unfold rewriteUrlsInJson
  rw [he]
  rfl

-- Header pipeline lemmas (C8, C9)

theorem mem_hDelete {kv : Str × Str} {hs : HeadersL} {n : Str}
    (h : kv ∈ hDelete hs n) : kv ∈ hs :=
  (List.mem_filter.mp h).1

theorem mem_hSet {kv : Str × Str} {hs : HeadersL} {n v : Str}
    (h : kv ∈ hSet hs n v) : kv ∈ hs ∨ kv.1 = hNorm n := by
  rcases List.mem_append.mp h with h | h
  · exact Or.inl (mem_hDelete h)
  · rw [List.mem_singleton] at h
    subst h
    exact Or.inr rfl

theorem mem_sanitizeRequestHeaders {kv : Str × Str} {hs : HeadersL}
    (h : kv ∈ sanitizeRequestHeaders hs) :
    (removeListHdrs.contains (hNorm kv.1) || isPre "x-cf-".data (hNorm kv.1)) = false := by
  have h2 := (List.mem_filter.mp h).2
  simpa using h2

theorem mem_fixIdentityHeader {kv : Str × Str} {hs : HeadersL} {config : Config}
    {name : Str} (h : kv ∈ fixIdentityHeader hs config name) :
    kv ∈ hs ∨ kv.1 = hNorm name := by
  unfold fixIdentityHeader at h
  split at h
  · exact Or.inl h
  · split at h
    · exact Or.inl h
    · split at h
      · exact Or.inl (mem_hDelete h)
      · split at h
        · split at h
          · exact mem_hSet h
          · exact Or.inl h
        · exact Or.inl h

theorem mem_sanitizeRequestCookie {kv : Str × Str} {hs : HeadersL} {config : Config}
    (h : kv ∈ sanitizeRequestCookie hs config) :
    kv ∈ hs ∨ kv.1 = hNorm "Cookie".data := by
  unfold sanitizeRequestCookie at h
  split at h
  · exact Or.inl h
  · split at h
    · exact Or.inl h
    · simp only [ne_eq] at h
      split at h
      · exact mem_hSet h
      · exact Or.inl (mem_hDelete h)

/-- C8 (amended): every outbound request built by rewriteRequest carries no
header from the fixed removeList (x-forwarded-for, x-forwarded-proto,
x-real-ip, via, cf-connecting-ip, cf-ipcountry, cf-ray, cf-visitor and the
three cf-access-* names of the list) and no header whose name starts with
x-cf-.  The spec's stronger claim that EVERY cf-* header is stripped is
false: the separate counterexample shows cf-access-client-id passing
through, because sanitizeRequestHeaders only matches the fixed list and the
x-cf- prefix. -/
theorem rewriteRequest_scrubs_listed (originalRequest : RequestRec)
    (targetURL : URLRec) (config : Config) :
    ∀ kv ∈ (rewriteRequest originalRequest targetURL config).headers,
      (removeListHdrs.contains (hNorm kv.1) || isPre "x-cf-".data (hNorm kv.1)) = false := by
  intro kv hmem
  simp only [rewriteRequest] at hmem
  rcases mem_sanitizeRequestCookie hmem with hmem | hck
  · unfold fixIdentityHeaders at hmem
    rcases mem_fixIdentityHeader hmem with hmem | hor
    · rcases mem_fixIdentityHeader hmem with hmem | href
      · rcases mem_hSet hmem with hmem | hhost
        · exact mem_sanitizeRequestHeaders hmem
        · rw [hhost]
          decide
      · rw [href]
        decide
    · rw [hor]
      decide
  · rw [hck]
    decide

theorem rewriteRequest_scrubs_listed_witness :
    (("host".data, "h.example".data)
        ∈ (rewriteRequest ⟨"https://h.p.example/a".data, "GET".data,
            [("cf-ray".data, "x".data)]⟩ ⟨"h.example".data, "/a".data, []⟩ cfgP).headers)
    ∧ (removeListHdrs.contains (hNorm "host".data)
        || isPre "x-cf-".data (hNorm "host".data)) = false :=
  ⟨by decide,
    rewriteRequest_scrubs_listed ⟨"https://h.p.example/a".data, "GET".data,
        [("cf-ray".data, "x".data)]⟩ ⟨"h.example".data, "/a".data, []⟩ cfgP
      ("host".data, "h.example".data) (by decide)⟩

theorem hGet_hDelete_same (hs : HeadersL) {n m : Str} (h : hNorm m = hNorm n) :
    hGet (hDelete hs n) m = none := by
  unfold hGet
  rw [Option.map_eq_none', List.find?_eq_none]
  intro kv hkv
  have h2 := (List.mem_filter.mp hkv).2
  simp only [Bool.not_eq_true', decide_eq_false_iff_not] at h2
  simp only [decide_eq_true_eq]
  intro heq
  exact h2 (heq.trans h)

theorem hGet_hDelete_ne (hs : HeadersL) {n m : Str} (h : ¬(hNorm m = hNorm n)) :
    hGet (hDelete hs n) m = hGet hs m := by
  unfold hGet hDelete
  induction hs with
  | nil => rfl
  | cons kv hs ih =>
    by_cases hkm : hNorm kv.1 = hNorm m
    · have hkn : ¬(hNorm kv.1 = hNorm n) := fun hh => h (hkm.symm.trans hh)
      rw [List.filter_cons_of_pos (by simpa using hkn)]
      rw [List.find?_cons_of_pos _ (by simpa using hkm)]
      rw [List.find?_cons_of_pos _ (by simpa using hkm)]
    · by_cases hkn : hNorm kv.1 = hNorm n
      · rw [List.filter_cons_of_neg (by simpa using hkn)]
        rw [ih]
        rw [List.find?_cons_of_neg _ (by simpa using hkm)]
      · rw [List.filter_cons_of_pos (by simpa using hkn)]
        rw [List.find?_cons_of_neg _ (by simpa using hkm)]
        rw [List.find?_cons_of_neg _ (by simpa using hkm)]
        exact ih

theorem hGet_append (hs1 hs2 : HeadersL) (m : Str) :
    hGet (hs1 ++ hs2) m = (hGet hs1 m).or (hGet hs2 m) := by
  unfold hGet
  rw [List.find?_append]
  rcases hf : List.find? (fun kv => hNorm kv.1 = hNorm m) hs1 with _ | kv <;>
    rw [hf] <;> rfl

theorem hGet_hSet_self (hs : HeadersL) (n v : Str) (hid : hNorm (hNorm n) = hNorm n) :
    hGet (hSet hs n v) n = some v := by
  unfold hSet
  rw [hGet_append, hGet_hDelete_same hs rfl]
  show (hGet [(hNorm n, v)] n) = some v
  unfold hGet
  rw [List.find?_cons_of_pos _ (by simpa using hid)]
  rfl

theorem hGet_hSet_ne (hs : HeadersL) {n m : Str} (v : Str) (h : ¬(hNorm m = hNorm n))
    (h2 : ¬(hNorm (hNorm n) = hNorm m)) :
    hGet (hSet hs n v) m = hGet hs m := by
  unfold hSet
  rw [hGet_append, hGet_hDelete_ne hs h]
  have hsing : hGet [(hNorm n, v)] m = none := by
    unfold hGet
    rw [List.find?_cons_of_neg _ (by simpa using h2)]
    rfl
  rw [hsing]
  cases hGet hs m <;> rfl

theorem hGet_hAppend_ne (hs : HeadersL) {n m : Str} (v : Str)
    (h2 : ¬(hNorm (hNorm n) = hNorm m)) :
    hGet (hAppend hs n v) m = hGet hs m := by
  unfold hAppend
  rw [hGet_append]
  have hsing : hGet [(hNorm n, v)] m = none := by
    unfold hGet
    rw [List.find?_cons_of_neg _ (by simpa using h2)]
    rfl
  rw [hsing]
  cases hGet hs m <;> rfl

theorem isSafeToCache_iff (response : ResponseRec) (config : Config) :
    isSafeToCache response config = true ↔
      (response.status = 200
        ∧ config.cacheableTypes.any (fun t =>
            containsSubstr ((hGet response.headers "Content-Type".data).getD []) t) = true
        ∧ ccFlagged ((hGet response.headers "Cache-Control".data).getD []) = false) := by
  simp only [isSafeToCache]
  split
  · rename_i hst
    simp [hst]
  · rename_i hst
    simp only [ne_eq, Decidable.not_not] at hst
    split
    · rename_i hct
      simp only [Bool.not_eq_true'] at hct
      simp [hct]
    · rename_i hct
      simp only [Bool.not_eq_true', Bool.not_eq_false] at hct
      simp [hst, hct, Bool.not_eq_true']

/-- C9: the cache write path stores only safe responses and hardens what it
stores: when cfCacheSave returns an entry, the stored response has no
Set-Cookie header, its Cache-Control is public, max-age={ttl}, its
Cloudflare-CDN-Cache-Control is max-age={ttl}, a Vary: Accept-Encoding pair
was appended, and the input response had status 200, a Content-Type
containing a configured cacheable type, and a Cache-Control free of
private/no-store/no-cache. -/
theorem cfCacheSave_invariants (request : RequestRec) (response : ResponseRec)
    (config : Config) (key : Str) (stored : ResponseRec)
    (h : cfCacheSave request response config = some (key, stored)) :
    hGet stored.headers "Set-Cookie".data = none
    ∧ hGet stored.headers "Cache-Control".data
        = some ("public, max-age=".data ++ natStr config.cacheTtl)
    ∧ hGet stored.headers "Cloudflare-CDN-Cache-Control".data
        = some ("max-age=".data ++ natStr config.cacheTtl)
    ∧ ("vary".data, "Accept-Encoding".data) ∈ stored.headers
    ∧ response.status = 200
    ∧ config.cacheableTypes.any (fun t =>
        containsSubstr ((hGet response.headers "Content-Type".data).getD []) t) = true
    ∧ ccFlagged ((hGet response.headers "Cache-Control".data).getD []) = false := by
  simp only [cfCacheSave] at h
  split at h
  · exact absurd h (by simp)
  · rename_i hsafe
    simp only [Bool.not_eq_true', Bool.not_eq_false] at hsafe
    rw [Option.some_inj, Prod.mk.injEq] at h
    obtain ⟨hk, hst2⟩ := h
    have hh : stored.headers
        = hAppend (hSet (hSet (hDelete response.headers "Set-Cookie".data)
            "Cloudflare-CDN-Cache-Control".data ("max-age=".data ++ natStr config.cacheTtl))
            "Cache-Control".data ("public, max-age=".data ++ natStr config.cacheTtl))
            "Vary".data "Accept-Encoding".data := by
      rw [← hst2]
    obtain ⟨hs200, hct, hcc⟩ := (isSafeToCache_iff response config).mp hsafe
    refine ⟨?_, ?_, ?_, ?_, hs200, hct, hcc⟩
    · rw [hh, hGet_hAppend_ne _ _ (by decide), hGet_hSet_ne _ _ (by decide) (by decide),
          hGet_hSet_ne _ _ (by decide) (by decide), hGet_hDelete_same _ rfl]
    · rw [hh, hGet_hAppend_ne _ _ (by decide), hGet_hSet_self _ _ _ (by decide)]
    · rw [hh, hGet_hAppend_ne _ _ (by decide), hGet_hSet_ne _ _ (by decide) (by decide),
          hGet_hSet_self _ _ _ (by decide)]
    · rw [hh]
      exact List.mem_append_right _ (by decide)

theorem cfCacheSave_invariants_witness :
    cfCacheSave reqC9 respC9 cfgC9 = some ("https://h.p.example/".data, storedC9)
    ∧ (hGet storedC9.headers "Set-Cookie".data = none
      ∧ hGet storedC9.headers "Cache-Control".data
          = some ("public, max-age=".data ++ natStr cfgC9.cacheTtl)
      ∧ hGet storedC9.headers "Cloudflare-CDN-Cache-Control".data
          = some ("max-age=".data ++ natStr cfgC9.cacheTtl)
      ∧ ("vary".data, "Accept-Encoding".data) ∈ storedC9.headers
      ∧ respC9.status = 200
      ∧ cfgC9.cacheableTypes.any (fun t =>
          containsSubstr ((hGet respC9.headers "Content-Type".data).getD []) t) = true
      ∧ ccFlagged ((hGet respC9.headers "Cache-Control".data).getD []) = false) :=
  ⟨by decide,
    cfCacheSave_invariants reqC9 respC9 cfgC9 "https://h.p.example/".data storedC9
      (by decide)⟩

/-- C10: the mod binding loop is broken in the code.  Every MOD_REGISTRY
entry sets the field className, but html.mjs step 4 instantiates
new modDef.Class(...args) — a property no registry entry sets — so with the
mod enabled in the configuration the loop throws a TypeError before
shouldRun is ever consulted, and the HTML streamer never binds the handler,
although the entry is enabled and its domain pattern * matches every host
(shouldRun itself matches the claimed pattern semantics: * accepts every
host, *.ex.com accepts ex.com and a.ex.com and rejects other.com).  The
claimed binds-iff-pattern-matches behaviour is therefore false of the
program. -/
theorem mod_binding_class_bug :
    (∀ m ∈ MOD_REGISTRY, m.classField = none)
    ∧ modEnabled cfgMods profanityMod = true
    ∧ effectivePattern profanityMod = "*".data
    ∧ shouldRun (effectivePattern profanityMod) "a.ex.com".data = true
    ∧ modBindOutcome cfgMods profanityMod "a.ex.com".data = BindOutcome.thrown
    ∧ modBinds cfgMods profanityMod "a.ex.com".data = false
    ∧ shouldRun "*.ex.com".data "ex.com".data = true
    ∧ shouldRun "*.ex.com".data "a.ex.com".data = true
    ∧ shouldRun "*.ex.com".data "other.com".data = false := by
  decide
